import Mathlib

/-!
Verification of the version-normalization and closest-match resolution core of
`lnd-grpc` (`src/index.js`, second revision in the file: `getClosestProtoVersion`
at lines 185-252 and `closestLower` at lines 257-265).

The JavaScript code leans on the `semver@5.x` npm library (see `package.json`:
`"semver": "^5.6.0"`).  The relevant library entry points — `semver.clean`,
`semver.parse` / the `SemVer` object with its `format` method, and
`semver.maxSatisfying(versions, '<= v', { includePrerelease: true })` — are
embedded below from the library's published 5.6.0 sources (strict mode, no
`loose` option).  JavaScript dynamic behaviour that the code path exercises
(`undefined.replace` throwing, `Number` coercion of arrays, template-literal
stringification, first-occurrence `String.prototype.replace`) is embedded
explicitly.

Modelling notes, stated once here:
* JS numbers are modelled as IEEE-754 binary64 values: `NaN` is the `none` of
  `JsNum := Option Dbl`, and a `Dbl` is either an infinity or a finite double
  stored exactly as its integer multiple of the sub-denormal grid step
  `2^(-1074)` (`-0` is identified with `0`, indistinguishable by every
  operation the program performs).  `Number(string)` implements the
  `StringNumericLiteral` grammar (decimal with fraction and exponent, `0x`,
  `0b`, `0o`, signs, `Infinity`) and rounds the exact value to the nearest
  double, ties to even; subtraction is correctly rounded the same way.
* `compareIdentifiers` of semver 5.6.0 compares numeric prerelease identifiers
  with JS `<` on numbers, i.e. on binary64 values.  `+digits` is modelled by
  `roundDouble`, rounding to 53 significant bits and saturating at `2^1024`, a
  single sentinel for infinity (order-compatible: every finite double lies
  below it, and overflowed identifiers compare equal, as JS infinities do).
* The async wrapper and the directory read (`getProtoVersions`) are I/O glue;
  `getClosestProtoVersion` is embedded as a function of the version string and
  the catalog that the directory read supplies.  Thrown exceptions (reachable
  when a catalog entry does not parse) are modelled with `Except String`.
* `new Range('<= ' + v, { includePrerelease: true })` is modelled through the
  5.6.0 pipeline for a single comparator: trim, `COMPARATORTRIM` gluing,
  `replaceXRanges` (a partial `<= 1.2` desugars to `<1.3.0`, an `x`/`X`/`*`
  major matches everything), `replaceStars`, and the final strict comparator
  parse; a failed construction is caught and yields `null`.  A version slot
  with internal whitespace or `|` would split into several comparators; such a
  slot never parses as semver, and is modelled conservatively as one invalid
  comparator (see `rangeLe`).
* JS `String(number)` (the template literal) is modelled exactly for
  infinities and for integral doubles below `10^21`; other finite doubles,
  which JS renders as shortest-round-tripping decimals, are rendered as their
  integer part (see `jsNumToChars`) — only integral build numbers reach it in
  the statements below.
-/

namespace LndGrpc

/-! ## Generic character-list utilities (JS string primitives) -/

/-- Split a character list at every occurrence of `sep`, keeping empty pieces:
the semantics of JS `String.prototype.split` with a one-character separator. -/
def splitOnChar (sep : Char) : List Char → List (List Char)
  | [] => [[]]
  | c :: cs =>
    match splitOnChar sep cs with
    | [] => [[]]
    | h :: t => if c = sep then [] :: h :: t else (c :: h) :: t

/-- Join character lists with a one-character separator (inverse of `splitOnChar`). -/
def intercalateChar (sep : Char) : List (List Char) → List Char
  | [] => []
  | [p] => p
  | p :: q :: r => p ++ sep :: intercalateChar sep (q :: r)

/-- Remove the first occurrence of `pat` from `l`: the semantics of JS
`String.prototype.replace(pat, '')` with a string pattern. -/
def removeFirstSub (pat : List Char) : List Char → List Char
  | [] => []
  | c :: cs => if pat.isPrefixOf (c :: cs) then (c :: cs).drop pat.length
               else c :: removeFirstSub pat cs

/-- JS whitespace test restricted to the ASCII characters that can occur here. -/
def isWsChar (c : Char) : Bool := c = ' ' ∨ c = '\t' ∨ c = '\n' ∨ c = '\r'

/-- The semantics of JS `String.prototype.trim` on ASCII input. -/
def trimChars (l : List Char) : List Char :=
  ((l.dropWhile isWsChar).reverse.dropWhile isWsChar).reverse

theorem splitOnChar_ne_nil (sep : Char) (l : List Char) : splitOnChar sep l ≠ [] := by
  cases l with
  | nil => simp [splitOnChar]
  | cons c cs =>
    simp only [splitOnChar]
    cases h : splitOnChar sep cs with
    | nil => simp
    | cons h t => by_cases hc : c = sep <;> simp [hc]

theorem splitOnChar_of_not_mem {sep : Char} {l : List Char} (h : sep ∉ l) :
    splitOnChar sep l = [l] := by
  induction l with
  | nil => rfl
  | cons c cs ih =>
    have hc : c ≠ sep := fun e => h (e ▸ List.mem_cons_self c cs)
    have hcs : sep ∉ cs := fun m => h (List.mem_cons_of_mem _ m)
    simp [splitOnChar, ih hcs, hc]

theorem mem_of_mem_splitOnChar {sep : Char} {l : List Char} {p : List Char}
    (hp : p ∈ splitOnChar sep l) {c : Char} (hc : c ∈ p) : c ∈ l := by
  induction l generalizing p with
  | nil =>
    simp [splitOnChar] at hp
    subst hp; simp at hc
  | cons x xs ih =>
    simp only [splitOnChar] at hp
    cases hsp : splitOnChar sep xs with
    | nil => exact absurd hsp (splitOnChar_ne_nil sep xs)
    | cons h t =>
      rw [hsp] at hp
      have hp' : p ∈ (if x = sep then ([] : List Char) :: h :: t else (x :: h) :: t) := hp
      clear hp
      rename' hp' => hp
      have ihh : ∀ q, q ∈ h :: t → c ∈ q → c ∈ xs := fun q hq hcq => ih (hsp ▸ hq) hcq
      by_cases hx : x = sep
      · rw [if_pos hx] at hp
        rcases List.mem_cons.mp hp with hp | hp
        · subst hp; exact absurd hc (List.not_mem_nil c)
        · exact List.mem_cons_of_mem _ (ihh _ hp hc)
      · rw [if_neg hx] at hp
        rcases List.mem_cons.mp hp with hp | hp
        · subst hp
          rcases List.mem_cons.mp hc with hc | hc
          · exact hc ▸ List.mem_cons_self x xs
          · exact List.mem_cons_of_mem _ (ihh _ (List.mem_cons_self h t) hc)
        · exact List.mem_cons_of_mem _ (ihh _ (List.mem_cons_of_mem _ hp) hc)

theorem intercalateChar_splitOnChar (sep : Char) (l : List Char) :
    intercalateChar sep (splitOnChar sep l) = l := by
  induction l with
  | nil => rfl
  | cons c cs ih =>
    simp only [splitOnChar]
    cases hsp : splitOnChar sep cs with
    | nil => exact absurd hsp (splitOnChar_ne_nil sep cs)
    | cons h t =>
      rw [hsp] at ih
      by_cases hc : c = sep
      · subst hc
        simp [intercalateChar, ih]
      · simp only [if_neg hc]
        cases t with
        | nil => simpa [intercalateChar] using congrArg (c :: ·) ih
        | cons t0 ts => simpa [intercalateChar] using congrArg (c :: ·) ih

theorem splitOnChar_append_sep {sep : Char} {a : List Char} (ha : sep ∉ a)
    (b : List Char) : splitOnChar sep (a ++ sep :: b) = a :: splitOnChar sep b := by
  induction a with
  | nil => cases h : splitOnChar sep b with
    | nil => exact absurd h (splitOnChar_ne_nil sep b)
    | cons x t => simp [splitOnChar, h]
  | cons c cs ih =>
    have hc : c ≠ sep := fun e => ha (e ▸ List.mem_cons_self c cs)
    have hcs : sep ∉ cs := fun m => ha (List.mem_cons_of_mem _ m)
    have h2 := ih hcs
    have hstep : splitOnChar sep (c :: (cs ++ sep :: b)) =
        match splitOnChar sep (cs ++ sep :: b) with
        | [] => [[]]
        | h :: t => if c = sep then [] :: h :: t else (c :: h) :: t := rfl
    rw [List.cons_append, hstep, h2]
    simp [hc]

theorem takeWhile_append_of_all {p : Char → Bool} {a : List Char}
    (ha : ∀ c ∈ a, p c) (b : List Char) :
    (a ++ b).takeWhile p = a ++ b.takeWhile p := by
  induction a with
  | nil => rfl
  | cons c cs ih =>
    have := ha c (List.mem_cons_self c cs)
    simp [List.takeWhile, this, ih (fun x hx => ha x (List.mem_cons_of_mem _ hx))]

theorem dropWhile_append_of_all {p : Char → Bool} {a : List Char}
    (ha : ∀ c ∈ a, p c) (b : List Char) :
    (a ++ b).dropWhile p = b.dropWhile p := by
  induction a with
  | nil => rfl
  | cons c cs ih =>
    have := ha c (List.mem_cons_self c cs)
    simp [List.dropWhile, this, ih (fun x hx => ha x (List.mem_cons_of_mem _ hx))]

theorem takeWhile_eq_self_of_all {p : Char → Bool} {a : List Char}
    (ha : ∀ c ∈ a, p c) : a.takeWhile p = a := by
  simpa using takeWhile_append_of_all ha []

/-! ## Decimal digits -/

/-- The decimal digit character for `n < 10`, spelled by cases so that it
computes and case-analyses without `Char.ofNat` arithmetic. -/
def digitChar : Nat → Char
  | 0 => '0'
  | 1 => '1'
  | 2 => '2'
  | 3 => '3'
  | 4 => '4'
  | 5 => '5'
  | 6 => '6'
  | 7 => '7'
  | 8 => '8'
  | _ => '9'

/-- Numeric value of a digit character. -/
def digitVal (c : Char) : Nat := c.toNat - 48

/-- Value of a decimal digit string, the way JS `+s` evaluates an all-digit
string (modulo binary64 rounding, which callers apply separately). -/
def natFromDigits (l : List Char) : Nat := l.foldl (fun a c => 10 * a + digitVal c) 0

/-- Canonical decimal rendering of a natural number, fuel-based so that it is
structurally recursive (the fuel `n + 1` always suffices since `n / 10 < n`
for `n ≥ 10`). -/
def natCharsAux : Nat → Nat → List Char
  | 0, _ => []
  | fuel + 1, n => if n < 10 then [digitChar n] else natCharsAux fuel (n / 10) ++ [digitChar (n % 10)]

/-- Canonical decimal rendering of a natural number (JS number-to-string for
non-negative integers). -/
def natChars (n : Nat) : List Char := natCharsAux (n + 1) n

/-- ASCII digit test (`/^\d$/`), spelled as an explicit ten-way disjunction so
that a digit hypothesis can be case-analysed. -/
def isDigitCh (c : Char) : Bool :=
  c = '0' || c = '1' || c = '2' || c = '3' || c = '4' ||
  c = '5' || c = '6' || c = '7' || c = '8' || c = '9'

/-- The semver identifier character class `[0-9A-Za-z-]`. -/
def isIdentCh (c : Char) : Bool := isDigitCh c || c.isAlpha || c = '-'

/-- Lower-case hexadecimal digit, the alphabet of a well-formed commit hash. -/
def isHexLowerCh (c : Char) : Bool :=
  isDigitCh c || c = 'a' || c = 'b' || c = 'c' || c = 'd' || c = 'e' || c = 'f'

/-! ## JS numbers: IEEE-754 binary64

A finite double is a multiple of the sub-denormal grid step `2^(-1074)` and is
stored as that integer multiple (`Dbl.fin n` has value `n / 2^1074`);
infinities are `Dbl.inf`; `NaN` is the `none` of `JsNum := Option Dbl`.
`-0` is identified with `0`: none of `<=`, `<`, `-`, `Math.abs`, `> 0` or the
template-literal rendering can tell them apart.  `roundRatGrid` rounds an
exact non-negative rational, given as a fraction in grid units, to the grid
point of the nearest double (round to nearest, ties to even), with the
IEEE-754 overflow rule at `2^1024` (grid `2^2098`). -/

/-- One finite or infinite binary64 value. -/
inductive Dbl where
  | fin : ℤ → Dbl
  | inf : Bool → Dbl
deriving DecidableEq, Repr

/-- Numeric literals denote the exact small-integer double (the power is
taken in `ℕ`, where literal arithmetic evaluates fast). -/
instance (n : Nat) : OfNat Dbl n := ⟨Dbl.fin ((n * 2 ^ 1074 : ℕ) : ℤ)⟩

abbrev JsNum := Option Dbl

/-- Binary64 `<=` (total on non-`NaN` values; `Bool`-valued `true` is the
negative infinity flag). -/
def dleB : Dbl → Dbl → Bool
  | .fin a, .fin b => a ≤ b
  | .fin _, .inf neg => !neg
  | .inf neg, .fin _ => neg
  | .inf n1, .inf n2 => n1 || !n2

/-- Binary64 `<`. -/
def dltB : Dbl → Dbl → Bool
  | .fin a, .fin b => a < b
  | .fin _, .inf neg => !neg
  | .inf neg, .fin _ => neg
  | .inf n1, .inf n2 => n1 && !n2

/-- Round-half-even of the fraction `a / b` (`b > 0`) to an integer. -/
def rhe (a b : Nat) : Nat :=
  let q := a / b
  let r := a % b
  if b < 2 * r then q + 1
  else if 2 * r < b then q
  else if q % 2 = 1 then q + 1 else q

/-- `⌊log2 n⌋` by structural recursion on a fuel that always suffices
(`n < 2^(n+1)`); large arguments are consumed 64 bits at a time so the
recursion depth stays logarithmic in the bit length. -/
def log2Fuel : Nat → Nat → Nat
  | 0, _ => 0
  | fuel + 1, n =>
    if 2 ^ 64 ≤ n then log2Fuel fuel (n / 2 ^ 64) + 64
    else if 2 ≤ n then log2Fuel fuel (n / 2) + 1 else 0

def natLog2 (n : Nat) : Nat := log2Fuel (n + 1) n

/-- `⌊log2 (N / q)⌋` for `N ≥ q > 0`: the difference of the integer logs,
corrected down by one when it overshoots. -/
def floorLogRat (N q : Nat) : Nat :=
  if q * 2 ^ (natLog2 N - natLog2 q) ≤ N then natLog2 N - natLog2 q
  else natLog2 N - natLog2 q - 1

/-- Round the non-negative rational `N / q` (in grid units, `q > 0`) to the
grid point of the nearest binary64 value: round-half-even to 53 significant
bits in the normal range, to the grid step itself below it. -/
def roundRatGrid (N q : Nat) : Nat :=
  if N < q * 2 ^ 53 then rhe N q
  else rhe N (q * 2 ^ (floorLogRat N q - 52)) * 2 ^ (floorLogRat N q - 52)

/-- Package rounded grid units as a double, overflowing to infinity from
`2^1024` (grid `2^2098`) on, the IEEE-754 round-to-nearest overflow rule. -/
def dblOfGrid (neg : Bool) (a : Nat) : Dbl :=
  if 2 ^ 2098 ≤ a then .inf neg else .fin (if neg then -(a : ℤ) else (a : ℤ))

/-- Round an exact value in grid units to the nearest double. -/
def roundDbl (i : ℤ) : Dbl := dblOfGrid (decide (i < 0)) (roundRatGrid i.natAbs 1)

/-- Binary64 subtraction: exact difference of grid values, correctly rounded;
`none` is the `NaN` of `∞ - ∞`. -/
def dsub : Dbl → Dbl → Option Dbl
  | .fin x, .fin y => some (roundDbl (x - y))
  | .fin _, .inf neg => some (.inf (!neg))
  | .inf neg, .fin _ => some (.inf neg)
  | .inf n1, .inf n2 => if n1 = n2 then none else some (.inf n1)

/-- Binary64 absolute value (exact). -/
def dabs : Dbl → Dbl
  | .fin n => .fin (if n < 0 then -n else n)
  | .inf _ => .inf false

/-- JS `<=` on numbers: false whenever either side is `NaN`. -/
def jsLe (a b : JsNum) : Bool :=
  match a, b with
  | some x, some y => dleB x y
  | _, _ => false

/-- JS `<` on numbers: false whenever either side is `NaN`. -/
def jsLt (a b : JsNum) : Bool :=
  match a, b with
  | some x, some y => dltB x y
  | _, _ => false

/-- JS subtraction with `NaN` propagation. -/
def jsSub (a b : JsNum) : JsNum :=
  match a, b with
  | some x, some y => dsub x y
  | _, _ => none

/-- JS `Math.abs` with `NaN` propagation. -/
def jsAbs (a : JsNum) : JsNum := a.map dabs

/-! ### `Number(string)`: the `StringNumericLiteral` grammar -/

/-- The whitespace `Number(string)` trims (ASCII subset; a non-ASCII space in
a catalog entry makes `semver.parse(entry).format()` throw before any `Number`
call, and prerelease/build identifiers admit `[0-9A-Za-z-]` only, so no
non-ASCII space reaches this function from the program). -/
def isJsWs (c : Char) : Bool :=
  c = ' ' || c = '\t' || c = '\n' || c = '\r' || c = '\x0b' || c = '\x0c'

def isHexDigitCh (c : Char) : Bool :=
  isDigitCh c || c = 'a' || c = 'b' || c = 'c' || c = 'd' || c = 'e' || c = 'f' ||
    c = 'A' || c = 'B' || c = 'C' || c = 'D' || c = 'E' || c = 'F'

def hexVal (c : Char) : Nat :=
  if c = 'a' || c = 'A' then 10 else if c = 'b' || c = 'B' then 11
  else if c = 'c' || c = 'C' then 12 else if c = 'd' || c = 'D' then 13
  else if c = 'e' || c = 'E' then 14 else if c = 'f' || c = 'F' then 15
  else digitVal c

def natFromBase (base : Nat) (val : Char → Nat) (l : List Char) : Nat :=
  l.foldl (fun acc c => base * acc + val c) 0

/-- The optional exponent part `e/E [+-] digits`. -/
def parseExpPart : List Char → Option ℤ
  | [] => some 0
  | c :: r =>
    if c = 'e' || c = 'E' then
      match r with
      | '+' :: d => if !d.isEmpty && d.all isDigitCh then some ((natFromDigits d : ℤ)) else none
      | '-' :: d => if !d.isEmpty && d.all isDigitCh then some (-(natFromDigits d : ℤ)) else none
      | d => if !d.isEmpty && d.all isDigitCh then some ((natFromDigits d : ℤ)) else none
    else none

/-- `StrUnsignedDecimalLiteral` without the `Infinity` production: digits with
optional fraction and exponent.  Returns the significand, the decimal exponent
and the significand digit count (the count only bounds the value). -/
def parseDecLit (l : List Char) : Option (Nat × ℤ × Nat) :=
  let ip := l.takeWhile isDigitCh
  let r1 := l.dropWhile isDigitCh
  match r1 with
  | '.' :: r2 =>
    let fp := r2.takeWhile isDigitCh
    let r3 := r2.dropWhile isDigitCh
    if ip.isEmpty && fp.isEmpty then none
    else (parseExpPart r3).map
      (fun e => (natFromDigits (ip ++ fp), e - fp.length, (ip ++ fp).length))
  | r =>
    if ip.isEmpty then none
    else (parseExpPart r).map (fun e => (natFromDigits ip, e, ip.length))

/-- The double value of the exact decimal `±D·10^E` with `D < 10^len`.  The
guard branches are exact: for `E > 400` the value exceeds `2^1024` and
overflows; for `E < -(400+len)` it is below half the smallest subnormal and
rounds to zero; in between the rational is rounded exactly. -/
def dblOfDec (neg : Bool) (D : Nat) (E : ℤ) (len : Nat) : Dbl :=
  if D = 0 then .fin 0
  else if (400 : ℤ) < E then .inf neg
  else if E < -(400 + (len : ℤ)) then .fin 0
  else if 0 ≤ E then dblOfGrid neg (roundRatGrid (D * 10 ^ E.toNat * 2 ^ 1074) 1)
  else dblOfGrid neg (roundRatGrid (D * 2 ^ 1074) (10 ^ E.natAbs))

/-- A signed `StrUnsignedDecimalLiteral`: `Infinity` or a decimal literal. -/
def parseSignedDec (neg : Bool) (t : List Char) : JsNum :=
  if t = "Infinity".data then some (.inf neg)
  else match parseDecLit t with
    | none => none
    | some (D, E, len) => some (dblOfDec neg D E len)

/-- `Number(string)`: trim, then a signed decimal literal or an unsigned
binary, octal or hexadecimal integer literal; anything else is `NaN`. -/
def parseJsNumber (l : List Char) : JsNum :=
  let t := ((l.dropWhile isJsWs).reverse.dropWhile isJsWs).reverse
  match t with
  | [] => some (.fin 0)
  | '+' :: r => parseSignedDec false r
  | '-' :: r => parseSignedDec true r
  | _ =>
    if t.take 2 = ['0', 'x'] || t.take 2 = ['0', 'X'] then
      let d := t.drop 2
      if !d.isEmpty && d.all isHexDigitCh then
        some (dblOfGrid false (roundRatGrid (natFromBase 16 hexVal d * 2 ^ 1074) 1))
      else none
    else if t.take 2 = ['0', 'b'] || t.take 2 = ['0', 'B'] then
      let d := t.drop 2
      if !d.isEmpty && d.all (fun c => c = '0' || c = '1') then
        some (dblOfGrid false (roundRatGrid (natFromBase 2 digitVal d * 2 ^ 1074) 1))
      else none
    else if t.take 2 = ['0', 'o'] || t.take 2 = ['0', 'O'] then
      let d := t.drop 2
      if !d.isEmpty && d.all (fun c => isDigitCh c && !(c = '8' || c = '9')) then
        some (dblOfGrid false (roundRatGrid (natFromBase 8 digitVal d * 2 ^ 1074) 1))
      else none
    else parseSignedDec false t

/-- JS `Number(x)` where `x` is `undefined` (`none`) or a string. -/
def jsToNumber : Option String → JsNum
  | none => none
  | some s => parseJsNumber s.data

/-- JS number-to-string as the template literal uses it: exact for infinities
and for integral doubles below `10^21` (plain decimal digits — the only
values the statements below print); other finite doubles, which JS renders as
shortest-round-tripping decimals, are rendered as their integer part. -/
def jsNumToChars (d : Dbl) : List Char :=
  match d with
  | .inf neg => if neg then '-' :: "Infinity".data else "Infinity".data
  | .fin n =>
    if n < 0 then '-' :: natChars (n.natAbs / 2 ^ 1074) else natChars (n.natAbs / 2 ^ 1074)

/-- Binary64 value of a natural number (the `+digits` coercion inside
`compareIdentifiers`): round to 53 significant bits, ties to even, saturating
at `2^1024` — a single sentinel for infinity, order-compatible: every finite
double lies below it and all overflowed values compare equal, exactly as JS
comparisons on two infinities. -/
def roundDouble (n : Nat) : Nat :=
  if n < 2 ^ 53 then n
  else
    let k := natLog2 n - 52
    let q := n / 2 ^ k
    let r := n % 2 ^ k
    let half := 2 ^ (k - 1)
    let rounded := (if half < r || (r = half && q % 2 = 1) then q + 1 else q) * 2 ^ k
    if 2 ^ 1024 ≤ rounded then 2 ^ 1024 else rounded

/-! ## The semver 5.6.0 model: parsing -/

/-- A prerelease identifier as the `SemVer` constructor stores it: digit-only
identifiers below `MAX_SAFE_INTEGER` become numbers, everything else stays a
string. -/
inductive PreId where
  | num : Nat → PreId
  | str : String → PreId
deriving DecidableEq, Repr

/-- The parsed `SemVer` object (fields `major`, `minor`, `patch`,
`prerelease`, `build`). -/
structure SemVerObj where
  major : Nat
  minor : Nat
  patch : Nat
  prerelease : List PreId
  build : List String
deriving DecidableEq, Repr

/-- semver `MAX_SAFE_INTEGER` (2^53 - 1). -/
def maxSafeInteger : Nat := 9007199254740991

/-- `NUMERICIDENTIFIER`: `0|[1-9]\d*` — digits with no leading zero. -/
def isNumericChunk : List Char → Bool
  | [] => false
  | c :: cs => (c :: cs).all isDigitCh && (cs.isEmpty || c ≠ '0')

/-- A main-version component: numeric, and the `SemVer` constructor throws
above `MAX_SAFE_INTEGER`. -/
def parseNumId (l : List Char) : Option Nat :=
  if isNumericChunk l && natFromDigits l ≤ maxSafeInteger then some (natFromDigits l) else none

/-- `PRERELEASEIDENTIFIER`: numeric (no leading zero) or any non-empty
identifier-character run containing a non-digit. -/
def isPreChunk (l : List Char) : Bool :=
  if l.all isDigitCh then isNumericChunk l else !l.isEmpty && l.all isIdentCh

/-- `BUILDIDENTIFIER`: `[0-9A-Za-z-]+`. -/
def isBuildChunk (l : List Char) : Bool := !l.isEmpty && l.all isIdentCh

/-- How the `SemVer` constructor stores one prerelease identifier. -/
def classifyPreChunk (l : List Char) : PreId :=
  if l.all isDigitCh && natFromDigits l < maxSafeInteger then PreId.num (natFromDigits l)
  else PreId.str (String.mk l)

def parsePre (l : List Char) : Option (List PreId) :=
  let chunks := splitOnChar '.' l
  if chunks.all isPreChunk then some (chunks.map classifyPreChunk) else none

def parseBuild (l : List Char) : Option (List String) :=
  let chunks := splitOnChar '.' l
  if chunks.all isBuildChunk then some (chunks.map String.mk) else none

/-- The `major.minor.patch` core: exactly three dot-separated numeric
components. -/
def parseMainChunks (main : List Char) : Option (Nat × Nat × Nat) :=
  match splitOnChar '.' main with
  | [ma, mi, pa] =>
    match parseNumId ma, parseNumId mi, parseNumId pa with
    | some vM, some vm, some vp => some (vM, vm, vp)
    | _, _, _ => none
  | _ => none

/-- What follows the main version: nothing, `-prerelease` (itself optionally
followed by `+build`), or `+build`. -/
def parseRest (vM vm vp : Nat) : List Char → Option SemVerObj
  | [] => some ⟨vM, vm, vp, [], []⟩
  | '-' :: r2 =>
    match parsePre (r2.takeWhile (fun c => c ≠ '+')) with
    | none => none
    | some pre =>
      match r2.dropWhile (fun c => c ≠ '+') with
      | [] => some ⟨vM, vm, vp, pre, []⟩
      | '+' :: b =>
        match parseBuild b with
        | none => none
        | some bs => some ⟨vM, vm, vp, pre, bs⟩
      | _ => none
  | '+' :: b =>
    match parseBuild b with
    | none => none
    | some bs => some ⟨vM, vm, vp, [], bs⟩
  | _ => none

/-- `^v?` of the `FULL` regular expression. -/
def stripV : List Char → List Char
  | 'v' :: r => r
  | l => l

/-- Strict `semver.parse` (the anchored `FULL` regular expression plus the
`SemVer` constructor): optional leading `v`, `major.minor.patch`, optional
`-prerelease`, optional `+build`, and `MAX_LENGTH = 256`. -/
def parseChars (l0 : List Char) : Option SemVerObj :=
  if l0.length > 256 then none
  else
    let l := stripV l0
    match parseMainChunks (l.takeWhile (fun c => !(c = '-' || c = '+'))) with
    | some (vM, vm, vp) => parseRest vM vm vp (l.dropWhile (fun c => !(c = '-' || c = '+')))
    | none => none

def semverParse (s : String) : Option SemVerObj := parseChars s.data

/-! ## The semver 5.6.0 model: formatting, cleaning, comparing -/

/-- Characters of one prerelease identifier as `join('.')` renders it. -/
def preIdChars : PreId → List Char
  | .num n => natChars n
  | .str s => s.data

/-- `SemVer.prototype.format`: `major.minor.patch` plus `-` and the
dot-joined prerelease list when non-empty.  Build metadata is NOT included
(5.x behaviour). -/
def fmtChars (sv : SemVerObj) : List Char :=
  natChars sv.major ++ '.' :: natChars sv.minor ++ '.' :: natChars sv.patch ++
    (if sv.prerelease.isEmpty then []
     else '-' :: intercalateChar '.' (sv.prerelease.map preIdChars))

def semverFormat (sv : SemVerObj) : String := String.mk (fmtChars sv)

/-- The `replace(/^[=v]+/, '')` step of `semver.clean`. -/
def dropEqV (l : List Char) : List Char := l.dropWhile (fun c => c = '=' || c = 'v')

/-- `semver.clean(version)`: trim, strip leading `=`/`v`, strict-parse, and
return the `version` attribute (the `format()` text) on success. -/
def semverClean (s : String) : Option String :=
  (parseChars (dropEqV (trimChars s.data))).map semverFormat

def cmpNat (a b : Nat) : Int := if a < b then -1 else if b < a then 1 else 0

/-- The numeric view `/^[0-9]+$/` that `compareIdentifiers` re-takes of an
identifier. -/
def preIdNumVal : PreId → Option Nat
  | .num n => some n
  | .str s => if !s.data.isEmpty && s.data.all isDigitCh then some (natFromDigits s.data) else none

/-- JS `<`/`>` on strings: lexicographic by code unit (all identifiers here
are ASCII). -/
def charListCmp : List Char → List Char → Int
  | [], [] => 0
  | [], _ :: _ => -1
  | _ :: _, [] => 1
  | a :: as, b :: bs => if a < b then -1 else if b < a then 1 else charListCmp as bs

/-- semver `compareIdentifiers`: numeric identifiers compare as JS numbers
(binary64), numeric sorts below non-numeric, strings compare as JS strings. -/
def compareIdentifiers (a b : PreId) : Int :=
  match preIdNumVal a, preIdNumVal b with
  | some x, some y => cmpNat (roundDouble x) (roundDouble y)
  | some _, none => -1
  | none, some _ => 1
  | none, none =>
    match a, b with
    | .str x, .str y => charListCmp x.data y.data
    | _, _ => 0

/-- JS `===` between two stored identifiers (numbers below 2^53 compare
exactly, so `Nat` equality is the double equality). -/
def jsStrictEq (a b : PreId) : Bool :=
  match a, b with
  | .num x, .num y => x = y
  | .str x, .str y => x = y
  | _, _ => false

/-- The identifier-by-identifier loop of `comparePre`: `===`-equal entries
continue, the first difference returns `compareIdentifiers` (which may itself
be 0 for distinct identifiers merged by binary64 rounding, ending the loop). -/
def comparePreLoop : List PreId → List PreId → Int
  | [], [] => 0
  | _ :: _, [] => 1
  | [], _ :: _ => -1
  | a :: as, b :: bs => if jsStrictEq a b then comparePreLoop as bs else compareIdentifiers a b

/-- `SemVer.prototype.comparePre`: a prerelease sorts below the bare version. -/
def comparePre (a b : List PreId) : Int :=
  match a, b with
  | [], [] => 0
  | _ :: _, [] => -1
  | [], _ :: _ => 1
  | _, _ => comparePreLoop a b

/-- `semver.compare`: `compareMain` (numeric components, exact below 2^53)
then `comparePre`. -/
def semverCmp (a b : SemVerObj) : Int :=
  if cmpNat a.major b.major ≠ 0 then cmpNat a.major b.major
  else if cmpNat a.minor b.minor ≠ 0 then cmpNat a.minor b.minor
  else if cmpNat a.patch b.patch ≠ 0 then cmpNat a.patch b.patch
  else comparePre a.prerelease b.prerelease

/-! ### `new Range('<= ' + version, { includePrerelease: true })`

semver 5.6.0 builds the range by trimming, gluing the operator to the version
text (`COMPARATORTRIM`), desugaring x-ranges (`replaceXRanges`: a partial
`<=1.2` becomes `<1.3.0`, a major of `x`/`X`/`*` makes the comparator match
everything), removing stars (`replaceStars`, which turns the desugared `*`
into the match-all empty comparator), and finally parsing one strict
comparator whose version part must be a full semver.  With a single
comparator and `includePrerelease: true`, `Range.test` is exactly the
comparator test. -/

/-- `x`, `X` or `*` in an x-range position. -/
def isXChunk (l : List Char) : Bool := l = ['x'] || l = ['X'] || l = ['*']

/-- The shape `replaceXRange` gives `'<=' + text` after the `[v=]*` prefix:
no match; an x major (matches everything); a missing or x minor
(`<= M` means `< M+1.0.0`); a missing or x patch (`<= M.m` means `< M.m+1.0`,
any prerelease/build tail discarded); or a full three-part version (the
comparator is left unchanged). -/
inductive XShape where
  | noMatch
  | anyx
  | bumpMajor : Nat → XShape
  | bumpMinor : Nat → Nat → XShape
  | fullv
deriving DecidableEq, Repr

def xshape (l : List Char) : XShape :=
  let main := l.takeWhile (fun c => !(c = '-' || c = '+'))
  let suffix := l.dropWhile (fun c => !(c = '-' || c = '+'))
  match splitOnChar '.' main with
  | [a] =>
    if !suffix.isEmpty then .noMatch
    else if isXChunk a then .anyx
    else if isNumericChunk a then .bumpMajor (natFromDigits a)
    else .noMatch
  | [a, b] =>
    if !suffix.isEmpty then .noMatch
    else if isXChunk a then (if isXChunk b || isNumericChunk b then .anyx else .noMatch)
    else if isNumericChunk a then
      if isXChunk b then .bumpMajor (natFromDigits a)
      else if isNumericChunk b then .bumpMinor (natFromDigits a) (natFromDigits b)
      else .noMatch
    else .noMatch
  | [a, b, c] =>
    let suffixOk := (parseRest 0 0 0 suffix).isSome
    if isXChunk a then
      (if (isXChunk b || isNumericChunk b) && ((isXChunk c || isNumericChunk c) && suffixOk)
       then .anyx else .noMatch)
    else if isNumericChunk a then
      if isXChunk b then
        (if (isXChunk c || isNumericChunk c) && suffixOk then .bumpMajor (natFromDigits a)
         else .noMatch)
      else if isNumericChunk b then
        if isXChunk c then
          (if suffixOk then .bumpMinor (natFromDigits a) (natFromDigits b) else .noMatch)
        else if isNumericChunk c then .fullv
        else .noMatch
      else .noMatch
    else .noMatch
  | _ => .noMatch

/-- A constructed `'<= ' + v` range: the single comparator it denotes. -/
inductive RangeComp where
  | any
  | le : SemVerObj → RangeComp
  | lt : SemVerObj → RangeComp
deriving DecidableEq, Repr

/-- `Comparator.test` (the `cmp` dispatch on `<=` and `<`), the empty
comparator matching everything. -/
def rcTest (rc : RangeComp) (sv : SemVerObj) : Bool :=
  match rc with
  | .any => true
  | .le rv => semverCmp sv rv ≤ 0
  | .lt rv => semverCmp sv rv < 0

/-- `new Range('<= ' + v)`: `none` when the construction throws (the caller
catches and returns `null`).  A full three-part version re-enters the strict
comparator parse, which admits at most one leading `v` (hence `parseChars` on
the trimmed text); a bumped partial re-enters the `SemVer` constructor, whose
`MAX_SAFE_INTEGER` guard rejects every component at or above `2^53` (larger
bumped majors also fail through the number-to-string round trip, in exponent
notation).  A version slot with internal whitespace or `|` would split into
several comparators; it never parses as semver and is modelled conservatively
as this single (invalid) comparator. -/
def rangeLe (v : String) : Option RangeComp :=
  let vt := ((v.data.dropWhile isJsWs).reverse.dropWhile isJsWs).reverse
  match xshape (vt.dropWhile (fun c => c = 'v' || c = '=')) with
  | .noMatch => none
  | .anyx => some .any
  | .fullv => (parseChars vt).map RangeComp.le
  | .bumpMajor M =>
    if M + 1 ≤ maxSafeInteger then some (.lt ⟨M + 1, 0, 0, [], []⟩) else none
  | .bumpMinor M m =>
    if M ≤ maxSafeInteger && m + 1 ≤ maxSafeInteger then some (.lt ⟨M, m + 1, 0, [], []⟩)
    else none

/-- One `forEach` step of `semver.maxSatisfying`: `Range.test` is false on the
empty string (falsy) without parsing; otherwise it parses the candidate with
`new SemVer` (throwing on an invalid string — modelled as the `Except` error)
and applies the comparator; the prerelease gate of `testSet` is disabled by
`includePrerelease: true`.  The running maximum is replaced when
`maxSV.compare(v) === -1`. -/
def maxSatStep (rc : RangeComp) (acc : Except String (Option (String × SemVerObj)))
    (ver : String) : Except String (Option (String × SemVerObj)) :=
  match acc with
  | .error e => .error e
  | .ok best =>
    if ver.data.isEmpty then .ok best
    else
      match semverParse ver with
      | none => .error (String.append "Invalid Version: " ver)
      | some sv =>
        if rcTest rc sv then
          match best with
          | none => .ok (some (ver, sv))
          | some (bs, bsv) =>
            if semverCmp bsv sv = -1 then .ok (some (ver, sv)) else .ok (some (bs, bsv))
        else .ok best

/-- `semver.maxSatisfying(versions, '<= ' + v, { includePrerelease: true })`:
`null` when the range does not construct, the fold above otherwise. -/
def maxSatisfying (versions : List String) (v : String) : Except String (Option String) :=
  match rangeLe v with
  | none => .ok none
  | some rc => (versions.foldl (maxSatStep rc) (.ok none)).map (fun o => o.map Prod.fst)

/-! ## The repository code (`src/index.js`, lines 185-265, second revision) -/

/-- The value of the refinement guard data `parse.build`: the guard at line 239
is `parse.build.length > 0`, and `closestLower` receives the array itself as
`val`, which every JS comparison coerces through `join(',')` to a number.
`none` is an empty build list (guard false); `some v` is a non-empty one with
`v` its numeric coercion. -/
def buildInfo (build : List String) : Option JsNum :=
  match build with
  | [] => none
  | l => some (parseJsNumber (intercalateChar ',' (l.map String.data)))

/-- Lines 191-223: the `try` block of `getClosestProtoVersion` with its
`catch`.  Input: the first whitespace token and the optional second token.
Output: the final value of the mutable `version` variable, and the refinement
data (`parse` non-null with non-empty `parse.build`).  Each `match` arm marks
one exception path of the JS:
* no commit token — `undefined.replace` throws at line 195 (`version` still the
  first token, `parse` undefined);
* `semver.clean` null — the explicit `throw` at line 198;
* line 207 `semver.parse` null — line 209 `null.prerelease` throws, after
  `version` was already overwritten at line 202 (`parse` is null);
* empty or numeric `parse.prerelease[0]` — `.split` throws at line 209
  (`parse` is set; its `build` is untouched). -/
def normalizeVersion (versionToken : String) (commitString : Option String) :
    String × Option JsNum :=
  match commitString with
  | none => (versionToken, none)
  | some cs =>
    match semverClean (String.mk (removeFirstSub "commit=".data cs.data)) with
    | none => (versionToken, none)
    | some fullversionsemver =>
      let version := String.mk
        (intercalateChar '-' ((splitOnChar '-' fullversionsemver.data).take 3))
      match semverParse version with
      | none => (version, none)
      | some parse =>
        match parse.prerelease.head? with
        | none => (version, buildInfo parse.build)
        | some (PreId.num _) => (version, buildInfo parse.build)
        | some (PreId.str s) =>
          let prerelease := ((splitOnChar '-' s.data).map String.mk).filter
            (fun p => p ≠ "beta")
          let isBuildNumber := match prerelease.head? with
            | some p0 => !p0.data.isEmpty && p0.data.all isDigitCh
            | none => false
          if isBuildNumber then
            let b : JsNum := parseJsNumber (intercalateChar ',' (prerelease.map String.data))
            (semverFormat { parse with prerelease := [] }, some b)
          else
            (semverFormat { parse with prerelease := prerelease.map PreId.str },
              buildInfo parse.build)

/-- Lines 187-224: split the raw string on spaces (JS array destructuring
takes the first two tokens) and run the `try` block. -/
def normalizeRaw (versionString : String) : String × Option JsNum :=
  let tokens := splitOnChar ' ' versionString.data
  normalizeVersion (String.mk (tokens.headD [])) ((tokens.get? 1).map String.mk)

/-- Lines 257-265: `closestLower(arr, val)` — filter to `v <= val`, `null` on
empty, otherwise `reduce` keeping the element whose absolute distance to `val`
is smaller (JS `reduce` seeds with the first element). -/
def closestLower (arr : List JsNum) (val : JsNum) : Option JsNum :=
  let filteredArr := arr.filter (fun v => jsLe v val)
  match filteredArr with
  | [] => none
  | x :: xs =>
    some (xs.foldl (fun prev curr =>
      if jsLt (jsAbs (jsSub curr val)) (jsAbs (jsSub prev val)) then curr else prev) x)

/-- Line 230: `versions.map(v => semver.parse(v).format())` — throws a
`TypeError` (`.format` of `null`) at the first entry that does not parse. -/
def mapParseFormat : List String → Except String (List String)
  | [] => .ok []
  | v :: rest =>
    match semverParse v with
    | none => .error (String.append "TypeError: semver.parse is null for " v)
    | some sv =>
      match mapParseFormat rest with
      | .error e => .error e
      | .ok fs => .ok (semverFormat sv :: fs)

/-- Lines 240-242: the candidate build numbers the refinement step considers —
filter the raw catalog to entries starting with `version + '+'` and map each to
`Number` of the text after the first `'+'`. -/
def buildsOf (version : String) (versions : List String) : List JsNum :=
  (versions.filter (fun v => (version.data ++ ['+']).isPrefixOf v.data)).map
    (fun v => jsToNumber (((splitOnChar '+' v.data).get? 1).map String.mk))

/-- Lines 239-247: the build-refinement step — overwrite the primary match
with `` `${version}+${closestMatch}` `` only when `closestMatch > 0` (false
for `null`, `NaN`, zero and negatives). -/
def refineStep (version : String) (val : JsNum) (versions : List String)
    (match0 : Option String) : Option String :=
  match closestLower (buildsOf version versions) val with
  | some (some q) =>
    if dltB (.fin 0) q then some (String.mk (version.data ++ '+' :: jsNumToChars q))
    else match0
  | _ => match0

/-- Lines 185-252: `getClosestProtoVersion(versionString)`, with the catalog
that `getProtoVersions` reads from disk supplied as the `versions` parameter
(the directory listing is out-of-scope I/O glue; the spec's
`resolveClosestVersion(raw, catalog)`).  A thrown exception — reachable
through `mapParseFormat` or `maxSatisfying` — rejects the promise and is
modelled as `Except.error`. -/
def getClosestProtoVersion (versionString : String) (versions : List String) :
    Except String (Option String) :=
  let vb := normalizeRaw versionString
  match mapParseFormat versions with
  | .error e => .error e
  | .ok filteredVersions =>
    match maxSatisfying filteredVersions vb.1 with
    | .error e => .error e
    | .ok match0 =>
      match vb.2 with
      | some val => .ok (refineStep vb.1 val versions match0)
      | none => .ok match0

/-- The semver portion of a candidate string: the text before the first `+`. -/
def semverPrefixOf (s : String) : String := String.mk (s.data.takeWhile (fun c => c ≠ '+'))

/-- The shape invariant that `parseChars` guarantees for a stored prerelease
identifier (used to re-parse `format` output). -/
def preIdWF : PreId → Prop
  | .num n => n < maxSafeInteger
  | .str s => s.data ≠ [] ∧ (∀ c ∈ s.data, isIdentCh c) ∧
      (s.data.all isDigitCh = true → isNumericChunk s.data = true ∧
        maxSafeInteger ≤ natFromDigits s.data)

/-- The shape invariant that `parseChars` guarantees for a parsed `SemVer`. -/
def svWF (sv : SemVerObj) : Prop :=
  sv.major ≤ maxSafeInteger ∧ sv.minor ≤ maxSafeInteger ∧ sv.patch ≤ maxSafeInteger ∧
  ∀ id ∈ sv.prerelease, preIdWF id

/-- SPEC-WORDS DEFINITION (not from the source): standard semver precedence on
one prerelease identifier -- identifiers consisting only of digits compare as
exact integers, numeric sorts below non-numeric, otherwise lexicographic.  It
differs from the source-derived `compareIdentifiers` only in comparing the
numeric values exactly instead of through `roundDouble`. -/
def stdIdCmp (a b : PreId) : Int :=
  match preIdNumVal a, preIdNumVal b with
  | some x, some y => cmpNat x y
  | some _, none => -1
  | none, some _ => 1
  | none, none =>
    match a, b with
    | .str x, .str y => charListCmp x.data y.data
    | _, _ => 0

/-- SPEC-WORDS DEFINITION: identifier-by-identifier comparison of two
prerelease lists, a shorter list sorting below an extension of it. -/
def stdPreCmpLoop : List PreId → List PreId → Int
  | [], [] => 0
  | _ :: _, [] => 1
  | [], _ :: _ => -1
  | a :: as, b :: bs => if stdIdCmp a b = 0 then stdPreCmpLoop as bs else stdIdCmp a b

/-- SPEC-WORDS DEFINITION: a prerelease version sorts below the bare version. -/
def stdPreCmp (a b : List PreId) : Int :=
  match a, b with
  | [], [] => 0
  | _ :: _, [] => -1
  | [], _ :: _ => 1
  | _, _ => stdPreCmpLoop a b

/-- SPEC-WORDS DEFINITION: standard semantic-version precedence ("standard
semver precedence, prerelease identifiers included in the comparison"), to be
compared against the source-derived `semverCmp`. -/
def cmpSemStd (a b : SemVerObj) : Int :=
  if cmpNat a.major b.major ≠ 0 then cmpNat a.major b.major
  else if cmpNat a.minor b.minor ≠ 0 then cmpNat a.minor b.minor
  else if cmpNat a.patch b.patch ≠ 0 then cmpNat a.patch b.patch
  else stdPreCmp a.prerelease b.prerelease

/-- The exact double of a natural number in grid units (`n · 2^(-1074+1074)`
= the integer `n`); the value every build-number comparison below works with,
exactly representable when `n < 2^53`. -/
def dN (n : Nat) : Dbl := Dbl.fin ((n * 2 ^ 1074 : ℕ) : ℤ)

deriving instance DecidableEq for Except

/-! ## The binary64 rounding lemmas

`log2Fuel`/`natLog2` compute `⌊log2⌋`; `rhe` is exact on exact multiples; and
rounding is the identity on grid values that are integer multiples of
`2^(-1074)` with fewer than 53 significant bits — in particular on every
integer below `2^53` and on every difference of two of them. -/

theorem log2Fuel_spec : ∀ (fuel n : Nat), 0 < n → n < 2 ^ fuel →
    2 ^ log2Fuel fuel n ≤ n ∧ n < 2 ^ (log2Fuel fuel n + 1) := by
  intro fuel
  induction fuel with
  | zero =>
    intro n h1 h2
    simp at h2
    omega
  | succ f ih =>
    intro n h1 h2
    simp only [log2Fuel]
    by_cases hbig : 2 ^ 64 ≤ n
    · rw [if_pos hbig]
      have hq : 0 < n / 2 ^ 64 := Nat.div_pos hbig (by positivity)
      have hle2 : n / 2 ^ 64 ≤ n / 2 :=
        Nat.div_le_div_left (by norm_num) (by norm_num)
      have hp : 2 ^ (f + 1) = 2 ^ f * 2 := by rw [pow_succ]
      have hlt : n / 2 ^ 64 < 2 ^ f := by
        have : n / 2 < 2 ^ f := by omega
        omega
      obtain ⟨ha, hb⟩ := ih (n / 2 ^ 64) hq hlt
      constructor
      · calc 2 ^ (log2Fuel f (n / 2 ^ 64) + 64)
            = 2 ^ log2Fuel f (n / 2 ^ 64) * 2 ^ 64 := by rw [pow_add]
          _ ≤ n / 2 ^ 64 * 2 ^ 64 := Nat.mul_le_mul ha (le_refl _)
          _ ≤ n := Nat.div_mul_le_self n _
      · have hmod : n % 2 ^ 64 < 2 ^ 64 := Nat.mod_lt _ (by positivity)
        have hdm := Nat.div_add_mod n (2 ^ 64)
        have hsplit : 2 ^ (log2Fuel f (n / 2 ^ 64) + 64 + 1)
            = 2 ^ (log2Fuel f (n / 2 ^ 64) + 1) * 2 ^ 64 := by
          rw [← pow_add]
        calc n = 2 ^ 64 * (n / 2 ^ 64) + n % 2 ^ 64 := hdm.symm
          _ < (n / 2 ^ 64 + 1) * 2 ^ 64 := by ring_nf; omega
          _ ≤ 2 ^ (log2Fuel f (n / 2 ^ 64) + 1) * 2 ^ 64 := Nat.mul_le_mul hb (le_refl _)
          _ = 2 ^ (log2Fuel f (n / 2 ^ 64) + 64 + 1) := hsplit.symm
    · rw [if_neg hbig]
      by_cases hn : 2 ≤ n
      · rw [if_pos hn]
        have hhalf : 0 < n / 2 := by omega
        have hp : 2 ^ (f + 1) = 2 ^ f * 2 := by rw [pow_succ]
        have hlt : n / 2 < 2 ^ f := by omega
        obtain ⟨ha, hb⟩ := ih (n / 2) hhalf hlt
        have hpow1 : 2 ^ (log2Fuel f (n / 2) + 1) = 2 ^ log2Fuel f (n / 2) * 2 := by rw [pow_succ]
        have hpow2 : 2 ^ (log2Fuel f (n / 2) + 1 + 1) = 2 ^ (log2Fuel f (n / 2) + 1) * 2 := by
          rw [pow_succ]
        constructor
        · omega
        · omega
      · rw [if_neg hn]
        have : n = 1 := by omega
        subst this
        simp
  
theorem natLog2_spec (n : Nat) (h : 0 < n) :
    2 ^ natLog2 n ≤ n ∧ n < 2 ^ (natLog2 n + 1) := by
  refine log2Fuel_spec (n + 1) n h ?_
  calc n < 2 ^ n := Nat.lt_two_pow n
    _ ≤ 2 ^ (n + 1) := Nat.pow_le_pow_right (by omega) (by omega)

theorem rhe_exact (a b : Nat) (hb : 0 < b) : rhe (a * b) b = a := by
  unfold rhe
  rw [Nat.mul_div_cancel a hb, Nat.mul_mod_left]
  simp [hb]

theorem natLog2_one : natLog2 1 = 0 := rfl

/-- Rounding is the identity on the grid multiples of `2^1074` below `2^53`
of them (i.e. on integral double values below `2^53`). -/
theorem roundRatGrid_mul (m : Nat) (hm : m < 2 ^ 53) :
    roundRatGrid (m * 2 ^ 1074) 1 = m * 2 ^ 1074 := by
  by_cases hz : m = 0
  · subst hz
    have h0 : (0 : Nat) * 2 ^ 1074 = 0 := by ring
    rw [h0]
    unfold roundRatGrid
    rw [if_pos (show (0 : Nat) < 1 * 2 ^ 53 by positivity)]
    rfl
  · have hm1 : 1 ≤ m := by omega
    have hNpos : 0 < m * 2 ^ 1074 := by positivity
    obtain ⟨hlo, hhi⟩ := natLog2_spec (m * 2 ^ 1074) hNpos
    have hflr : floorLogRat (m * 2 ^ 1074) 1 = natLog2 (m * 2 ^ 1074) := by
      unfold floorLogRat
      rw [natLog2_one, Nat.sub_zero, if_pos (by rw [one_mul]; exact hlo)]
    unfold roundRatGrid
    rw [if_neg (by
      push_neg
      calc (1 : Nat) * 2 ^ 53 = 2 ^ 53 := by ring
        _ ≤ 2 ^ 1074 := Nat.pow_le_pow_right (by omega) (by omega)
        _ = 1 * 2 ^ 1074 := by ring
        _ ≤ m * 2 ^ 1074 := Nat.mul_le_mul_right _ hm1)]
    rw [hflr]
    have hup : m * 2 ^ 1074 < 2 ^ 1127 := by
      calc m * 2 ^ 1074 < 2 ^ 53 * 2 ^ 1074 :=
            mul_lt_mul_of_pos_right hm (Nat.pos_pow_of_pos 1074 (by omega))
        _ = 2 ^ 1127 := by rw [← pow_add]
    have hble : natLog2 (m * 2 ^ 1074) ≤ 1126 := by
      by_contra hcon
      push_neg at hcon
      have : (2 : Nat) ^ 1127 ≤ 2 ^ natLog2 (m * 2 ^ 1074) :=
        Nat.pow_le_pow_right (by omega) (by omega)
      omega
    have hk : natLog2 (m * 2 ^ 1074) - 52 ≤ 1074 := by omega
    have hsplit : (2 : Nat) ^ 1074 =
        2 ^ (1074 - (natLog2 (m * 2 ^ 1074) - 52)) * 2 ^ (natLog2 (m * 2 ^ 1074) - 52) := by
      rw [← pow_add, Nat.sub_add_cancel hk]
    have hdvd : m * 2 ^ 1074 =
        m * 2 ^ (1074 - (natLog2 (m * 2 ^ 1074) - 52)) * 2 ^ (natLog2 (m * 2 ^ 1074) - 52) := by
      rw [mul_assoc, ← hsplit]
    rw [one_mul]
    calc rhe (m * 2 ^ 1074) (2 ^ (natLog2 (m * 2 ^ 1074) - 52)) *
          2 ^ (natLog2 (m * 2 ^ 1074) - 52)
        = rhe (m * 2 ^ (1074 - (natLog2 (m * 2 ^ 1074) - 52)) *
            2 ^ (natLog2 (m * 2 ^ 1074) - 52)) (2 ^ (natLog2 (m * 2 ^ 1074) - 52)) *
            2 ^ (natLog2 (m * 2 ^ 1074) - 52) := by rw [← hdvd]
      _ = m * 2 ^ (1074 - (natLog2 (m * 2 ^ 1074) - 52)) *
            2 ^ (natLog2 (m * 2 ^ 1074) - 52) := by
          rw [rhe_exact _ _ (by positivity)]
      _ = m * 2 ^ 1074 := by rw [← hdvd]

theorem roundDbl_grid (a : ℤ) (h : a.natAbs < 2 ^ 53) :
    roundDbl (a * 2 ^ 1074) = Dbl.fin (a * 2 ^ 1074) := by
  have habs : (a * 2 ^ 1074).natAbs = a.natAbs * 2 ^ 1074 := by
    rw [Int.natAbs_mul]
    norm_num
  unfold roundDbl dblOfGrid
  rw [habs, roundRatGrid_mul a.natAbs h]
  have hlt : a.natAbs * 2 ^ 1074 < 2 ^ 2098 := by
    calc a.natAbs * 2 ^ 1074 < 2 ^ 53 * 2 ^ 1074 :=
          mul_lt_mul_of_pos_right h (Nat.pos_pow_of_pos 1074 (by omega))
      _ = 2 ^ 1127 := by rw [← pow_add]
      _ ≤ 2 ^ 2098 := Nat.pow_le_pow_right (by omega) (by omega)
  rw [if_neg (by omega)]
  have hcast : ((a.natAbs * 2 ^ 1074 : ℕ) : ℤ) = (a.natAbs : ℤ) * 2 ^ 1074 := by
    rw [Nat.cast_mul, Nat.cast_pow, Nat.cast_ofNat]
  by_cases hneg : a * 2 ^ 1074 < 0
  · rw [if_pos (by simpa using hneg)]
    have ha : a < 0 := by
      by_contra hc
      push_neg at hc
      have : 0 ≤ a * 2 ^ 1074 := mul_nonneg hc (by positivity)
      omega
    have hna : ((a.natAbs : ℤ)) = -a := by omega
    rw [hcast, hna, neg_mul, neg_neg]
  · rw [if_neg (by simpa using hneg)]
    have ha : 0 ≤ a := by
      by_contra hc
      push_neg at hc
      have h2 : a * 2 ^ 1074 < 0 := by
        apply mul_neg_of_neg_of_pos hc
        positivity
      omega
    have hna : ((a.natAbs : ℤ)) = a := by omega
    rw [hcast, hna]

/-! ## Supporting lemmas about `closestLower` on exact integer doubles -/

theorem dN_le (a b : Nat) : dleB (dN a) (dN b) = decide (a ≤ b) := by
  have h0 : dleB (dN a) (dN b) =
      decide (((a * 2 ^ 1074 : ℕ) : ℤ) ≤ ((b * 2 ^ 1074 : ℕ) : ℤ)) := rfl
  rw [h0, decide_eq_decide, Int.ofNat_le]
  exact mul_le_mul_right (by positivity)

theorem dN_lt (a b : Nat) : dltB (dN a) (dN b) = decide (a < b) := by
  have h0 : dltB (dN a) (dN b) =
      decide (((a * 2 ^ 1074 : ℕ) : ℤ) < ((b * 2 ^ 1074 : ℕ) : ℤ)) := rfl
  rw [h0, decide_eq_decide, Int.ofNat_lt]
  exact mul_lt_mul_right (by positivity)

theorem dN_sub_abs {y t : Nat} (hy : y ≤ t) (ht : t < 2 ^ 53) :
    jsAbs (jsSub (some (dN y)) (some (dN t))) = some (dN (t - y)) := by
  have h53 : (2 : ℕ) ^ 53 = 9007199254740992 := by norm_num
  have h2 : jsAbs (jsSub (some (dN y)) (some (dN t))) =
      some (dabs (roundDbl (((y * 2 ^ 1074 : ℕ) : ℤ) - ((t * 2 ^ 1074 : ℕ) : ℤ)))) := rfl
  have hcy : ((y * 2 ^ 1074 : ℕ) : ℤ) = (y : ℤ) * 2 ^ 1074 := by push_cast; ring
  have hct : ((t * 2 ^ 1074 : ℕ) : ℤ) = (t : ℤ) * 2 ^ 1074 := by push_cast; ring
  have h1 : (y : ℤ) * 2 ^ 1074 - (t : ℤ) * 2 ^ 1074 = ((y : ℤ) - t) * 2 ^ 1074 := by ring
  rw [h2, hcy, hct, h1, roundDbl_grid _ (by omega)]
  simp only [dabs, dN]
  have hcty : (((t - y) * 2 ^ 1074 : ℕ) : ℤ) = ((t - y : ℕ) : ℤ) * 2 ^ 1074 := by
    push_cast
    ring
  have hty : ((t - y : ℕ) : ℤ) = (t : ℤ) - y := by omega
  split
  · next h =>
    rw [hcty, hty]
    refine congrArg (fun z => some (Dbl.fin z)) ?_
    ring
  · next h =>
    rw [hcty, hty]
    refine congrArg (fun z => some (Dbl.fin z)) ?_
    have hle : ((y : ℤ) - t) * 2 ^ 1074 ≤ 0 :=
      mul_nonpos_of_nonpos_of_nonneg (by omega) (by positivity)
    have h0 : ((y : ℤ) - t) * 2 ^ 1074 = 0 := le_antisymm hle (not_lt.mp h)
    have hyt : (y : ℤ) - t = 0 := by
      rcases mul_eq_zero.mp h0 with h3 | h3
      · exact h3
      · exfalso
        have h4 : (0 : ℤ) < 2 ^ 1074 := by positivity
        omega
    rw [hyt, show (t : ℤ) - y = 0 by omega]

theorem filter_jsLe_dN (l : List Nat) (t : Nat) :
    (l.map (fun n => some (dN n))).filter (fun v => jsLe v (some (dN t))) =
      (l.filter (fun n => n ≤ t)).map (fun n => some (dN n)) := by
  induction l with
  | nil => rfl
  | cons a as ih =>
    simp only [List.map, List.filter_cons]
    have hle : jsLe (some (dN a)) (some (dN t)) = dleB (dN a) (dN t) := rfl
    rw [hle, dN_le]
    by_cases h : a ≤ t
    · rw [if_pos (by simpa using h), if_pos (by simpa using h)]
      rw [ih]
      rfl
    · rw [if_neg (by simpa using h), if_neg (by simpa using h)]
      exact ih

theorem redFold_dN (t : Nat) (ht : t < 2 ^ 53) (xs : List Nat) (x : Nat) (hx : x ≤ t)
    (hxs : ∀ y ∈ xs, y ≤ t) :
    (xs.map (fun n => some (dN n))).foldl (fun prev curr =>
        if jsLt (jsAbs (jsSub curr (some (dN t)))) (jsAbs (jsSub prev (some (dN t))))
        then curr else prev) (some (dN x)) = some (dN (xs.foldl max x)) := by
  induction xs generalizing x with
  | nil => rfl
  | cons y ys ih =>
    have hy : y ≤ t := hxs y (List.mem_cons_self y ys)
    have hys : ∀ z ∈ ys, z ≤ t := fun z hz => hxs z (List.mem_cons_of_mem _ hz)
    have hstep : (if jsLt (jsAbs (jsSub (some (dN y)) (some (dN t))))
        (jsAbs (jsSub (some (dN x)) (some (dN t)))) then some (dN y) else some (dN x)) =
        some (dN (max x y)) := by
      rw [dN_sub_abs hy ht, dN_sub_abs hx ht]
      have hlt : jsLt (some (dN (t - y))) (some (dN (t - x))) = dltB (dN (t - y)) (dN (t - x)) :=
        rfl
      rw [hlt, dN_lt, max_def]
      by_cases h : t - y < t - x
      · rw [if_pos (by simpa using h), if_pos (by omega)]
      · rw [if_neg (by simpa using h)]
        by_cases h2 : x ≤ y
        · have : x = y := by omega
          subst this
          rw [if_pos le_rfl]
        · rw [if_neg h2]
    simp only [List.map, List.foldl, hstep]
    exact ih (max x y) (max_le hx hy) hys

/-- `closestLower` on exactly representable integer values (target below
`2^53`) computes the maximum element at most the target: all comparisons and
both subtractions are exact there. -/
theorem closestLower_dN (l : List Nat) (t : Nat) (ht : t < 2 ^ 53) :
    closestLower (l.map (fun n => some (dN n))) (some (dN t)) =
      ((l.filter (fun n => n ≤ t)).max?).map (fun n => some (dN n)) := by
  unfold closestLower
  rw [filter_jsLe_dN]
  cases h : l.filter (fun n => n ≤ t) with
  | nil => rfl
  | cons x xs =>
    have hxs : ∀ y ∈ xs, y ≤ t := by
      intro y hy
      have hmem : y ∈ l.filter (fun n => n ≤ t) := h ▸ List.mem_cons_of_mem _ hy
      simpa using List.of_mem_filter hmem
    have hx : x ≤ t := by
      have hmem : x ∈ l.filter (fun n => n ≤ t) := h ▸ List.mem_cons_self x xs
      simpa using List.of_mem_filter hmem
    simp only [List.map]
    rw [redFold_dN t ht xs x hx hxs]
    rfl


/-! ## Decimal printer and digit-string lemmas -/

theorem digitChar_isDigit (n : Nat) : isDigitCh (digitChar n) := by
  unfold digitChar
  split <;> decide

theorem digit_cases {c : Char} (h : isDigitCh c) :
    c = '0' ∨ c = '1' ∨ c = '2' ∨ c = '3' ∨ c = '4' ∨
    c = '5' ∨ c = '6' ∨ c = '7' ∨ c = '8' ∨ c = '9' := by
  simpa [isDigitCh, or_assoc] using h

theorem digitVal_digitChar {n : Nat} (h : n < 10) : digitVal (digitChar n) = n := by
  interval_cases n <;> decide

theorem digitChar_digitVal {c : Char} (h : isDigitCh c) : digitChar (digitVal c) = c := by
  rcases digit_cases h with rfl|rfl|rfl|rfl|rfl|rfl|rfl|rfl|rfl|rfl <;> rfl

theorem digitVal_lt_ten {c : Char} (h : isDigitCh c) : digitVal c < 10 := by
  rcases digit_cases h with rfl|rfl|rfl|rfl|rfl|rfl|rfl|rfl|rfl|rfl <;> decide

theorem digitVal_pos {c : Char} (h : isDigitCh c) (h0 : c ≠ '0') : 1 ≤ digitVal c := by
  rcases digit_cases h with rfl|rfl|rfl|rfl|rfl|rfl|rfl|rfl|rfl|rfl
  · exact absurd rfl h0
  all_goals decide

theorem natCharsAux_irrel : ∀ (f1 : Nat) (n : Nat), n < f1 → ∀ (f2 : Nat), n < f2 →
    natCharsAux f1 n = natCharsAux f2 n := by
  intro f1
  induction f1 with
  | zero => intro n h; exact absurd h (Nat.not_lt_zero n)
  | succ g ih =>
    intro n hn f2 hf2
    cases f2 with
    | zero => exact absurd hf2 (Nat.not_lt_zero n)
    | succ g2 =>
      by_cases h10 : n < 10
      · simp [natCharsAux, h10]
      · have hd : n / 10 < n := Nat.div_lt_self (by omega) (by omega)
        have h1 : n / 10 < g := by omega
        have h2 : n / 10 < g2 := by omega
        simp only [natCharsAux, if_neg h10]
        rw [ih (n / 10) h1 g2 h2]

theorem natChars_lt10 {n : Nat} (h : n < 10) : natChars n = [digitChar n] := by
  unfold natChars
  simp [natCharsAux, h]

theorem natChars_step {n : Nat} (h : ¬ n < 10) :
    natChars n = natChars (n / 10) ++ [digitChar (n % 10)] := by
  have hd : n / 10 < n := Nat.div_lt_self (by omega) (by omega)
  show natCharsAux (n + 1) n = _
  simp only [natCharsAux, if_neg h]
  congr 1
  exact natCharsAux_irrel n (n / 10) (by omega) (n / 10 + 1) (Nat.lt_succ_self _)

theorem natChars_all_digit (n : Nat) : ∀ c ∈ natChars n, isDigitCh c := by
  induction n using Nat.strong_induction_on with
  | _ n ih =>
    by_cases h10 : n < 10
    · rw [natChars_lt10 h10]
      intro c hc
      simp only [List.mem_singleton] at hc
      subst hc
      exact digitChar_isDigit n
    · rw [natChars_step h10]
      intro c hc
      rcases List.mem_append.mp hc with hc | hc
      · exact ih (n / 10) (Nat.div_lt_self (by omega) (by omega)) c hc
      · simp only [List.mem_singleton] at hc
        subst hc
        exact digitChar_isDigit _

theorem natChars_ne_nil (n : Nat) : natChars n ≠ [] := by
  by_cases h10 : n < 10
  · rw [natChars_lt10 h10]; simp
  · rw [natChars_step h10]; simp

theorem natChars_head_ne_zero {n : Nat} (h1 : 1 ≤ n) :
    ∀ {c : Char} {cs : List Char}, natChars n = c :: cs → c ≠ '0' := by
  induction n using Nat.strong_induction_on with
  | _ n ih =>
    intro c cs hc
    by_cases h10 : n < 10
    · rw [natChars_lt10 h10] at hc
      have : c = digitChar n := by simpa using congrArg List.head? hc |>.symm |> Option.some.inj
      subst this
      interval_cases n <;> first | omega | decide
    · rw [natChars_step h10] at hc
      cases hh : natChars (n / 10) with
      | nil => exact absurd hh (natChars_ne_nil _)
      | cons c0 cs0 =>
        rw [hh] at hc
        have hd : n / 10 < n := Nat.div_lt_self (by omega) (by omega)
        have h1d : 1 ≤ n / 10 := by omega
        have hcc : c = c0 := by
          have := congrArg List.head? hc
          simp at this
          exact this.symm
        subst hcc
        exact ih (n / 10) hd h1d hh

theorem isNumericChunk_natChars (n : Nat) : isNumericChunk (natChars n) := by
  cases hn : natChars n with
  | nil => exact absurd hn (natChars_ne_nil n)
  | cons c cs =>
    have hall : ∀ x ∈ c :: cs, isDigitCh x := fun x hx => natChars_all_digit n x (hn ▸ hx)
    show ((c :: cs).all isDigitCh && (cs.isEmpty || decide (c ≠ '0'))) = true
    refine (Bool.and_eq_true _ _).mpr ⟨List.all_eq_true.mpr hall, ?_⟩
    by_cases h1 : 1 ≤ n
    · have := natChars_head_ne_zero h1 hn
      simp [this]
    · have hn0 : n = 0 := by omega
      subst hn0
      have : natChars 0 = ['0'] := by decide
      rw [this] at hn
      cases hn
      simp

theorem natFromDigits_append (a : List Char) (d : Char) :
    natFromDigits (a ++ [d]) = 10 * natFromDigits a + digitVal d := by
  unfold natFromDigits
  rw [List.foldl_append]
  rfl

theorem natFromDigits_natChars (n : Nat) : natFromDigits (natChars n) = n := by
  induction n using Nat.strong_induction_on with
  | _ n ih =>
    by_cases h10 : n < 10
    · rw [natChars_lt10 h10]
      show 10 * 0 + digitVal (digitChar n) = n
      rw [digitVal_digitChar h10]
      omega
    · rw [natChars_step h10, natFromDigits_append,
        ih (n / 10) (Nat.div_lt_self (by omega) (by omega)),
        digitVal_digitChar (Nat.mod_lt n (by omega))]
      omega

theorem natFromDigits_pos {c : Char} {cs : List Char} (hc : isDigitCh c) (h0 : c ≠ '0') :
    1 ≤ natFromDigits (c :: cs) := by
  have h1 : 1 ≤ digitVal c := digitVal_pos hc h0
  have mono : ∀ (l : List Char) (a : Nat),
      a ≤ List.foldl (fun a c => 10 * a + digitVal c) a l := by
    intro l
    induction l with
    | nil => intro a; exact le_refl a
    | cons x xs ihx =>
      intro a
      exact le_trans (by omega) (ihx (10 * a + digitVal x))
  calc 1 ≤ 10 * 0 + digitVal c := by omega
    _ ≤ _ := mono cs _

theorem natChars_inv {ds : List Char} (h : isNumericChunk ds) :
    natChars (natFromDigits ds) = ds := by
  induction ds using List.reverseRecOn with
  | nil => exact absurd h (by decide)
  | append_singleton l d ihl =>
    have hall : ∀ x ∈ l ++ [d], isDigitCh x := by
      cases hl : l ++ [d] with
      | nil => simp at hl
      | cons c cs =>
        rw [hl] at h
        have h2 : ((c :: cs).all isDigitCh && (cs.isEmpty || decide (c ≠ '0'))) = true := h
        intro x hx
        exact (List.all_eq_true.mp ((Bool.and_eq_true _ _).mp h2).1) x hx
    have hd : isDigitCh d := hall d (List.mem_append_right l (List.mem_singleton.mpr rfl))
    cases l with
    | nil =>
      have hv : natFromDigits [d] = digitVal d := by
        show 10 * 0 + digitVal d = digitVal d
        omega
      rw [List.nil_append] at *
      rw [hv, natChars_lt10 (digitVal_lt_ten hd), digitChar_digitVal hd]
    | cons c cs =>
      have hcd : isDigitCh c := hall c (List.mem_append_left _ (List.mem_cons_self c cs))
      have hc0 : c ≠ '0' := by
        have hmk : ((c :: (cs ++ [d])).all isDigitCh && ((cs ++ [d]).isEmpty || decide (c ≠ '0'))) = true := h
        have h2 := ((Bool.and_eq_true _ _).mp hmk).2
        rcases Bool.or_eq_true _ _ |>.mp h2 with h2 | h2
        · exfalso
          simp at h2
        · simpa using h2
      have hlchunk : isNumericChunk (c :: cs) := by
        show ((c :: cs).all isDigitCh && (cs.isEmpty || decide (c ≠ '0'))) = true
        refine (Bool.and_eq_true _ _).mpr ⟨?_, ?_⟩
        · rw [List.all_eq_true]
          intro x hx
          exact hall x (List.mem_append_left _ hx)
        · simp [hc0]
      have hval : 1 ≤ natFromDigits (c :: cs) := natFromDigits_pos hcd hc0
      rw [List.cons_append, ← List.cons_append, natFromDigits_append]
      have hvd : digitVal d < 10 := digitVal_lt_ten hd
      have h10 : ¬ (10 * natFromDigits (c :: cs) + digitVal d < 10) := by omega
      rw [natChars_step h10]
      have hdiv : (10 * natFromDigits (c :: cs) + digitVal d) / 10 = natFromDigits (c :: cs) := by
        omega
      have hmod : (10 * natFromDigits (c :: cs) + digitVal d) % 10 = digitVal d := by
        omega
      rw [hdiv, hmod, ihl hlchunk, digitChar_digitVal hd]

/-! ## Well-formedness of parsed objects and the format round-trip -/


theorem isDigitCh_isIdent {c : Char} (h : isDigitCh c) : isIdentCh c := by
  simp [isIdentCh, h]

theorem ident_not_dot {c : Char} (h : isIdentCh c) : c ≠ '.' := by
  intro e; subst e; exact absurd h (by decide)

theorem ident_not_plus {c : Char} (h : isIdentCh c) : c ≠ '+' := by
  intro e; subst e; exact absurd h (by decide)

theorem digit_not_dash {c : Char} (h : isDigitCh c) : c ≠ '-' := by
  intro e; subst e; exact absurd h (by decide)

theorem digit_not_dot {c : Char} (h : isDigitCh c) : c ≠ '.' := by
  intro e; subst e; exact absurd h (by decide)

theorem digit_not_plus {c : Char} (h : isDigitCh c) : c ≠ '+' := by
  intro e; subst e; exact absurd h (by decide)

theorem digit_not_v {c : Char} (h : isDigitCh c) : c ≠ 'v' := by
  intro e; subst e; exact absurd h (by decide)

theorem numericChunk_all_digit {l : List Char} (h : isNumericChunk l) :
    l ≠ [] ∧ ∀ c ∈ l, isDigitCh c := by
  cases l with
  | nil => exact absurd h (by decide)
  | cons c cs =>
    have h2 : ((c :: cs).all isDigitCh && (cs.isEmpty || decide (c ≠ '0'))) = true := h
    exact ⟨by simp, List.all_eq_true.mp ((Bool.and_eq_true _ _).mp h2).1⟩

theorem classify_wf {ch : List Char} (h : isPreChunk ch) : preIdWF (classifyPreChunk ch) := by
  unfold isPreChunk at h
  unfold classifyPreChunk
  by_cases hd : ch.all isDigitCh
  · rw [if_pos hd] at h
    by_cases hval : natFromDigits ch < maxSafeInteger
    · rw [if_pos (by simp [hd, hval])]
      exact hval
    · rw [if_neg (by rw [hd]; simpa using hval)]
      refine ⟨(numericChunk_all_digit h).1, ?_, ?_⟩
      · exact fun c hc => isDigitCh_isIdent ((numericChunk_all_digit h).2 c hc)
      · intro _
        exact ⟨h, le_of_not_lt hval⟩
  · rw [if_neg hd] at h
    rw [if_neg (by rw [Bool.and_eq_true]; rintro ⟨h1, _⟩; exact hd h1)]
    have h1 : ch ≠ [] := by
      rcases (Bool.and_eq_true _ _).mp h with ⟨he, _⟩
      simpa using he
    have h2 : ∀ c ∈ ch, isIdentCh c :=
      List.all_eq_true.mp ((Bool.and_eq_true _ _).mp h).2
    exact ⟨h1, h2, fun hall => absurd hall hd⟩

theorem classify_chars {ch : List Char} (h : isPreChunk ch) :
    preIdChars (classifyPreChunk ch) = ch := by
  unfold classifyPreChunk
  by_cases hg : ch.all isDigitCh && decide (natFromDigits ch < maxSafeInteger)
  · rw [if_pos hg]
    unfold preIdChars
    have hd : ch.all isDigitCh := ((Bool.and_eq_true _ _).mp hg).1
    have : isNumericChunk ch := by
      unfold isPreChunk at h
      rwa [if_pos hd] at h
    exact natChars_inv this
  · rw [if_neg hg]
    rfl

theorem classify_preIdChars {id : PreId} (h : preIdWF id) :
    classifyPreChunk (preIdChars id) = id := by
  cases id with
  | num n =>
    unfold preIdChars classifyPreChunk
    rw [if_pos]
    · rw [natFromDigits_natChars]
    · rw [List.all_eq_true.mpr (natChars_all_digit n), natFromDigits_natChars]
      simpa using h
  | str s =>
    rcases h with ⟨hne, hident, hdig⟩
    show classifyPreChunk s.data = PreId.str s
    unfold classifyPreChunk
    by_cases hall : s.data.all isDigitCh
    · rcases hdig hall with ⟨hnum, hge⟩
      rw [if_neg (by rw [hall]; simp only [Bool.true_and, decide_eq_true_eq]; omega)]
    · rw [if_neg (by rw [Bool.and_eq_true]; rintro ⟨h1, _⟩; exact hall h1)]

theorem isPreChunk_preIdChars {id : PreId} (h : preIdWF id) :
    isPreChunk (preIdChars id) := by
  cases id with
  | num n =>
    unfold preIdChars isPreChunk
    rw [if_pos (List.all_eq_true.mpr (natChars_all_digit n))]
    exact isNumericChunk_natChars n
  | str s =>
    unfold preIdChars isPreChunk
    rcases h with ⟨hne, hident, hdig⟩
    by_cases hall : s.data.all isDigitCh
    · rw [if_pos hall]
      exact (hdig hall).1
    · rw [if_neg hall]
      rw [Bool.and_eq_true]
      exact ⟨by simpa using hne, List.all_eq_true.mpr hident⟩

theorem preIdChars_ne_nil {id : PreId} (h : preIdWF id) : preIdChars id ≠ [] := by
  cases id with
  | num n => exact natChars_ne_nil n
  | str s => exact h.1

theorem preIdChars_ident {id : PreId} (h : preIdWF id) : ∀ c ∈ preIdChars id, isIdentCh c := by
  cases id with
  | num n => exact fun c hc => isDigitCh_isIdent (natChars_all_digit n c hc)
  | str s => exact h.2.1

theorem splitOnChar_intercalateChar {sep : Char} {parts : List (List Char)}
    (hne : parts ≠ []) (h : ∀ p ∈ parts, sep ∉ p) :
    splitOnChar sep (intercalateChar sep parts) = parts := by
  induction parts with
  | nil => contradiction
  | cons p rest ih =>
    cases rest with
    | nil => exact splitOnChar_of_not_mem (h p (List.mem_cons_self p []))
    | cons q r =>
      have hstep : intercalateChar sep (p :: q :: r) = p ++ sep :: intercalateChar sep (q :: r) := rfl
      rw [hstep, splitOnChar_append_sep (h p (List.mem_cons_self _ _)),
        ih (by simp) (fun x hx => h x (List.mem_cons_of_mem _ hx))]

theorem stripV_cons {c : Char} {r : List Char} (h : c ≠ 'v') : stripV (c :: r) = c :: r := by
  unfold stripV
  split
  · next heq =>
    injection heq with h1 _
    exact absurd h1 h
  · rfl

theorem parseNumId_inv {l : List Char} {n : Nat} (h : parseNumId l = some n) :
    isNumericChunk l ∧ natFromDigits l = n ∧ n ≤ maxSafeInteger ∧ natChars n = l := by
  unfold parseNumId at h
  split at h
  · next hg =>
    rcases (Bool.and_eq_true _ _).mp hg with ⟨h1, h2⟩
    injection h with hn
    subst hn
    exact ⟨h1, rfl, by simpa using h2, natChars_inv h1⟩
  · cases h

theorem parseNumId_natChars {n : Nat} (h : n ≤ maxSafeInteger) :
    parseNumId (natChars n) = some n := by
  unfold parseNumId
  rw [if_pos]
  · rw [natFromDigits_natChars]
  · rw [isNumericChunk_natChars, natFromDigits_natChars]
    simpa using h

theorem parsePre_inv {l : List Char} {pre : List PreId} (h : parsePre l = some pre) :
    pre = (splitOnChar '.' l).map classifyPreChunk ∧
    ∀ ch ∈ splitOnChar '.' l, isPreChunk ch := by
  simp only [parsePre] at h
  split at h
  · next hg =>
    injection h with hp
    exact ⟨hp.symm, fun ch hch => List.all_eq_true.mp hg ch hch⟩
  · cases h

theorem parsePre_of_wf {pre : List PreId} (hne : pre ≠ []) (h : ∀ id ∈ pre, preIdWF id) :
    parsePre (intercalateChar '.' (pre.map preIdChars)) = some pre := by
  have hparts : splitOnChar '.' (intercalateChar '.' (pre.map preIdChars)) = pre.map preIdChars := by
    refine splitOnChar_intercalateChar (by simpa using hne) ?_
    intro p hp
    rcases List.mem_map.mp hp with ⟨id, hid, rfl⟩
    intro hdot
    exact absurd rfl (ident_not_dot (preIdChars_ident (h id hid) '.' hdot))
  unfold parsePre
  rw [hparts, if_pos]
  · congr 1
    rw [List.map_map]
    have : ∀ id ∈ pre, (classifyPreChunk ∘ preIdChars) id = id := fun id hid =>
      classify_preIdChars (h id hid)
    exact (List.map_congr_left this).trans (List.map_id pre)
  · rw [List.all_eq_true]
    intro ch hch
    rcases List.mem_map.mp hch with ⟨id, hid, rfl⟩
    exact isPreChunk_preIdChars (h id hid)



theorem dropWhile_eq_nil_of_all {p : Char → Bool} {a : List Char}
    (ha : ∀ c ∈ a, p c) : a.dropWhile p = [] := by
  have := dropWhile_append_of_all ha ([] : List Char)
  simpa using this

theorem length_stripV (l : List Char) : (stripV l).length ≤ l.length := by
  cases l with
  | nil => exact le_refl _
  | cons c r =>
    by_cases hc : c = 'v'
    · subst hc
      show r.length ≤ r.length + 1
      omega
    · rw [stripV_cons hc]

theorem mem_intercalateChar {sep : Char} {parts : List (List Char)} {c : Char}
    (h : c ∈ intercalateChar sep parts) : c = sep ∨ ∃ p ∈ parts, c ∈ p := by
  induction parts with
  | nil => simp [intercalateChar] at h
  | cons p rest ih =>
    cases rest with
    | nil =>
      exact Or.inr ⟨p, List.mem_cons_self p [], by simpa [intercalateChar] using h⟩
    | cons q r =>
      have hstep : intercalateChar sep (p :: q :: r) = p ++ sep :: intercalateChar sep (q :: r) := rfl
      rw [hstep] at h
      rcases List.mem_append.mp h with h | h
      · exact Or.inr ⟨p, List.mem_cons_self _ _, h⟩
      · rcases List.mem_cons.mp h with h | h
        · exact Or.inl h
        · rcases ih h with h | ⟨x, hx, hcx⟩
          · exact Or.inl h
          · exact Or.inr ⟨x, List.mem_cons_of_mem _ hx, hcx⟩

theorem parseMainChunks_inv {main : List Char} {vM vm vp : Nat}
    (h : parseMainChunks main = some (vM, vm, vp)) :
    ∃ ma mi pa, splitOnChar '.' main = [ma, mi, pa] ∧
      parseNumId ma = some vM ∧ parseNumId mi = some vm ∧ parseNumId pa = some vp := by
  unfold parseMainChunks at h
  split at h
  · next ma mi pa heq =>
    split at h
    · next hma hmi hpa =>
      injection h with h1
      refine ⟨ma, mi, pa, heq, ?_, ?_, ?_⟩
      · rw [hma]; exact congrArg some (congrArg Prod.fst h1)
      · rw [hmi]; exact congrArg some (congrArg Prod.fst (congrArg Prod.snd h1))
      · rw [hpa]; exact congrArg some (congrArg Prod.snd (congrArg Prod.snd h1))
    · cases h
  · cases h

theorem parseRest_some_inv {vM vm vp : Nat} {r : List Char} {sv : SemVerObj}
    (h : parseRest vM vm vp r = some sv) :
    (r = [] ∧ sv = ⟨vM, vm, vp, [], []⟩) ∨
    (∃ r2 pre, r = '-' :: r2 ∧ parsePre (r2.takeWhile (fun c => c ≠ '+')) = some pre ∧
      ((r2.dropWhile (fun c => c ≠ '+') = [] ∧ sv = ⟨vM, vm, vp, pre, []⟩) ∨
       (∃ b bs, r2.dropWhile (fun c => c ≠ '+') = '+' :: b ∧ parseBuild b = some bs ∧
         sv = ⟨vM, vm, vp, pre, bs⟩))) ∨
    (∃ b bs, r = '+' :: b ∧ parseBuild b = some bs ∧ sv = ⟨vM, vm, vp, [], bs⟩) := by
  unfold parseRest at h
  split at h
  · exact Or.inl ⟨rfl, (Option.some.inj h).symm⟩
  · next r2 =>
    split at h
    · cases h
    · next pre hpre =>
      split at h
      · exact Or.inr (Or.inl ⟨r2, pre, rfl, hpre, Or.inl ⟨by assumption, (Option.some.inj h).symm⟩⟩)
      · next b hb =>
        split at h
        · cases h
        · next bs hbs =>
          exact Or.inr (Or.inl ⟨r2, pre, rfl, hpre,
            Or.inr ⟨b, bs, by assumption, hbs, (Option.some.inj h).symm⟩⟩)
      · cases h
  · next b =>
    split at h
    · cases h
    · next bs hbs => exact Or.inr (Or.inr ⟨b, bs, rfl, hbs, (Option.some.inj h).symm⟩)
  · cases h

theorem parseChars_some_inv {l0 : List Char} {sv : SemVerObj} (h : parseChars l0 = some sv) :
    ∃ vM vm vp, l0.length ≤ 256 ∧
      parseMainChunks ((stripV l0).takeWhile (fun c => !(c = '-' || c = '+'))) =
        some (vM, vm, vp) ∧
      parseRest vM vm vp ((stripV l0).dropWhile (fun c => !(c = '-' || c = '+'))) = some sv := by
  simp only [parseChars] at h
  split at h
  · cases h
  · next hlen =>
    split at h
    · next a b c heq =>
      exact ⟨a, b, c, by omega, heq, h⟩
    · cases h

theorem parsePre_wf {l : List Char} {pre : List PreId} (h : parsePre l = some pre) :
    ∀ id ∈ pre, preIdWF id := by
  rcases parsePre_inv h with ⟨hp, hall⟩
  intro id hid
  rw [hp] at hid
  rcases List.mem_map.mp hid with ⟨ch, hch, rfl⟩
  exact classify_wf (hall ch hch)

theorem parse_wf {l0 : List Char} {sv : SemVerObj} (h : parseChars l0 = some sv) : svWF sv := by
  rcases parseChars_some_inv h with ⟨vM, vm, vp, hlen, hmain, hrest⟩
  rcases parseMainChunks_inv hmain with ⟨ma, mi, pa, hsplit, hma, hmi, hpa⟩
  have hM := (parseNumId_inv hma).2.2.1
  have hm := (parseNumId_inv hmi).2.2.1
  have hp := (parseNumId_inv hpa).2.2.1
  rcases parseRest_some_inv hrest with ⟨_, rfl⟩ | ⟨r2, pre, hr, hpre, hcase⟩ | ⟨b, bs, hr, hb, rfl⟩
  · exact ⟨hM, hm, hp, by intro id hid; simp at hid⟩
  · have hwf := parsePre_wf hpre
    rcases hcase with ⟨_, rfl⟩ | ⟨b, bs, _, _, rfl⟩
    · exact ⟨hM, hm, hp, hwf⟩
    · exact ⟨hM, hm, hp, hwf⟩
  · exact ⟨hM, hm, hp, by intro id hid; simp at hid⟩



theorem mainP_of_digit {c : Char} (h : isDigitCh c) : (!(c = '-' || c = '+')) = true := by
  have h1 := digit_not_dash h
  have h2 := digit_not_plus h
  simp [h1, h2]

theorem take_main {A B C T : List Char}
    (hA : ∀ c ∈ A, isDigitCh c) (hB : ∀ c ∈ B, isDigitCh c) (hC : ∀ c ∈ C, isDigitCh c) :
    (A ++ '.' :: (B ++ '.' :: (C ++ T))).takeWhile (fun c => !(c = '-' || c = '+')) =
      A ++ '.' :: (B ++ '.' :: (C ++ T.takeWhile (fun c => !(c = '-' || c = '+')))) := by
  rw [takeWhile_append_of_all (fun c hc => mainP_of_digit (hA c hc))]
  congr 1
  rw [List.takeWhile_cons_of_pos (by decide)]
  congr 1
  rw [takeWhile_append_of_all (fun c hc => mainP_of_digit (hB c hc))]
  congr 1
  rw [List.takeWhile_cons_of_pos (by decide)]
  congr 1
  exact takeWhile_append_of_all (fun c hc => mainP_of_digit (hC c hc)) T

theorem drop_main {A B C T : List Char}
    (hA : ∀ c ∈ A, isDigitCh c) (hB : ∀ c ∈ B, isDigitCh c) (hC : ∀ c ∈ C, isDigitCh c) :
    (A ++ '.' :: (B ++ '.' :: (C ++ T))).dropWhile (fun c => !(c = '-' || c = '+')) =
      T.dropWhile (fun c => !(c = '-' || c = '+')) := by
  rw [dropWhile_append_of_all (fun c hc => mainP_of_digit (hA c hc))]
  rw [List.dropWhile_cons_of_pos (by decide)]
  rw [dropWhile_append_of_all (fun c hc => mainP_of_digit (hB c hc))]
  rw [List.dropWhile_cons_of_pos (by decide)]
  exact dropWhile_append_of_all (fun c hc => mainP_of_digit (hC c hc)) T

theorem dropWhile_of_takeWhile_nil {p : Char → Bool} {T : List Char}
    (h : T.takeWhile p = []) : T.dropWhile p = T := by
  cases T with
  | nil => rfl
  | cons c t =>
    by_cases hc : p c
    · rw [List.takeWhile_cons_of_pos hc] at h
      cases h
    · rw [List.dropWhile_cons_of_neg hc]

theorem parse_spine {A B C T : List Char} {vM vm vp : Nat}
    (hA : parseNumId A = some vM) (hB : parseNumId B = some vm) (hC : parseNumId C = some vp)
    (hT : T.takeWhile (fun c => !(c = '-' || c = '+')) = [])
    (hlen : (A ++ '.' :: (B ++ '.' :: (C ++ T))).length ≤ 256) :
    parseChars (A ++ '.' :: (B ++ '.' :: (C ++ T))) = parseRest vM vm vp T := by
  have hAd : ∀ c ∈ A, isDigitCh c := (numericChunk_all_digit (parseNumId_inv hA).1).2
  have hBd : ∀ c ∈ B, isDigitCh c := (numericChunk_all_digit (parseNumId_inv hB).1).2
  have hCd : ∀ c ∈ C, isDigitCh c := (numericChunk_all_digit (parseNumId_inv hC).1).2
  have hAne : A ≠ [] := (numericChunk_all_digit (parseNumId_inv hA).1).1
  have hstrip : stripV (A ++ '.' :: (B ++ '.' :: (C ++ T))) =
      A ++ '.' :: (B ++ '.' :: (C ++ T)) := by
    cases hA0 : A with
    | nil => exact absurd hA0 hAne
    | cons a as =>
      have ha : isDigitCh a := hAd a (by rw [hA0]; exact List.mem_cons_self _ _)
      rw [List.cons_append, stripV_cons (digit_not_v ha)]
  have hdots : ∀ (L : List Char), (∀ c ∈ L, isDigitCh c) → '.' ∉ L := by
    intro L hL hmem
    exact absurd rfl (digit_not_dot (hL '.' hmem))
  have hchunks : splitOnChar '.' (A ++ '.' :: (B ++ '.' :: C)) = [A, B, C] := by
    rw [splitOnChar_append_sep (hdots A hAd), splitOnChar_append_sep (hdots B hBd),
      splitOnChar_of_not_mem (hdots C hCd)]
  have hmain : parseMainChunks (A ++ '.' :: (B ++ '.' :: (C ++
      T.takeWhile (fun c => !(c = '-' || c = '+'))))) = some (vM, vm, vp) := by
    rw [hT, List.append_nil]
    unfold parseMainChunks
    rw [hchunks]
    simp only [hA, hB, hC]
  simp only [parseChars]
  rw [if_neg (by omega), hstrip, take_main hAd hBd hCd, drop_main hAd hBd hCd, hmain,
    dropWhile_of_takeWhile_nil hT]

theorem parseRest_dash_clean {vM vm vp : Nat} {J : List Char} {pre : List PreId}
    (hnp : ∀ c ∈ J, c ≠ '+') (hparse : parsePre J = some pre) :
    parseRest vM vm vp ('-' :: J) = some ⟨vM, vm, vp, pre, []⟩ := by
  show (match parsePre (J.takeWhile (fun c => c ≠ '+')) with
    | none => none
    | some pre =>
      match J.dropWhile (fun c => c ≠ '+') with
      | [] => some (⟨vM, vm, vp, pre, []⟩ : SemVerObj)
      | '+' :: b =>
        match parseBuild b with
        | none => none
        | some bs => some ⟨vM, vm, vp, pre, bs⟩
      | _ => none) = some ⟨vM, vm, vp, pre, []⟩
  rw [takeWhile_eq_self_of_all (fun c hc => by simpa using hnp c hc), hparse,
    dropWhile_eq_nil_of_all (fun c hc => by simpa using hnp c hc)]

theorem fmt_parse {sv : SemVerObj} (hwf : svWF sv) (hlen : (fmtChars sv).length ≤ 256) :
    parseChars (fmtChars sv) = some ⟨sv.major, sv.minor, sv.patch, sv.prerelease, []⟩ := by
  obtain ⟨hM, hm, hp, hpre⟩ := hwf
  have hA := parseNumId_natChars hM
  have hB := parseNumId_natChars hm
  have hC := parseNumId_natChars hp
  cases hpree : sv.prerelease with
  | nil =>
    have hfmt : fmtChars sv = natChars sv.major ++ '.' :: (natChars sv.minor ++ '.' ::
        (natChars sv.patch ++ [])) := by
      unfold fmtChars
      rw [hpree]
      simp
    have hTnil : (([] : List Char)).takeWhile (fun c => !(c = '-' || c = '+')) = [] := rfl
    rw [hfmt] at hlen
    rw [hfmt, parse_spine hA hB hC hTnil hlen]
    rfl
  | cons id rest =>
    have hprewf : ∀ x ∈ sv.prerelease, preIdWF x := hpre
    rw [hpree] at hprewf
    have hJid : ∀ c ∈ intercalateChar '.' ((id :: rest).map preIdChars),
        isIdentCh c ∨ c = '.' := by
      intro c hc
      rcases mem_intercalateChar hc with hc | ⟨pp, hpp, hcp⟩
      · exact Or.inr hc
      · rcases List.mem_map.mp hpp with ⟨x, hx, rfl⟩
        exact Or.inl (preIdChars_ident (hprewf x hx) c hcp)
    have hJnp : ∀ c ∈ intercalateChar '.' ((id :: rest).map preIdChars), c ≠ '+' := by
      intro c hc
      rcases hJid c hc with hc2 | hc2
      · exact ident_not_plus hc2
      · subst hc2; decide
    have hfmt : fmtChars sv = natChars sv.major ++ '.' :: (natChars sv.minor ++ '.' ::
        (natChars sv.patch ++ ('-' :: intercalateChar '.' ((id :: rest).map preIdChars)))) := by
      unfold fmtChars
      rw [hpree]
      simp
    have hT : ('-' :: intercalateChar '.' ((id :: rest).map preIdChars)).takeWhile
        (fun c => !(c = '-' || c = '+')) = [] := by
      rw [List.takeWhile_cons_of_neg (by decide)]
    rw [hfmt] at hlen
    rw [hfmt, parse_spine hA hB hC hT hlen,
      parseRest_dash_clean hJnp (parsePre_of_wf (by simp) hprewf)]

theorem parse_fmt_length {l0 : List Char} {sv : SemVerObj} (h : parseChars l0 = some sv) :
    (fmtChars sv).length ≤ l0.length := by
  rcases parseChars_some_inv h with ⟨vM, vm, vp, hlen, hmain, hrest⟩
  rcases parseMainChunks_inv hmain with ⟨ma, mi, pa, hsplit, hma, hmi, hpa⟩
  have hmainrec : (stripV l0).takeWhile (fun c => !(c = '-' || c = '+')) =
      ma ++ '.' :: (mi ++ '.' :: pa) := by
    have hx := intercalateChar_splitOnChar '.'
      ((stripV l0).takeWhile (fun c => !(c = '-' || c = '+')))
    rw [hsplit] at hx
    rw [← hx]
    rfl
  have hma4 := (parseNumId_inv hma).2.2.2
  have hmi4 := (parseNumId_inv hmi).2.2.2
  have hpa4 := (parseNumId_inv hpa).2.2.2
  have hsplitlen : (stripV l0).takeWhile (fun c => !(c = '-' || c = '+')) ++
      (stripV l0).dropWhile (fun c => !(c = '-' || c = '+')) = stripV l0 :=
    List.takeWhile_append_dropWhile _ _
  have hl0 : (stripV l0).length ≤ l0.length := length_stripV l0
  rcases parseRest_some_inv hrest with ⟨hr, rfl⟩ | ⟨r2, pre, hr, hpre, hcase⟩ |
    ⟨b, bs, hr, hb, rfl⟩
  · have hfmt : fmtChars ⟨vM, vm, vp, [], []⟩ = ma ++ '.' :: (mi ++ '.' :: (pa ++ [])) := by
      unfold fmtChars
      rw [show (⟨vM, vm, vp, [], []⟩ : SemVerObj).major = vM from rfl,
        show (⟨vM, vm, vp, [], []⟩ : SemVerObj).minor = vm from rfl,
        show (⟨vM, vm, vp, [], []⟩ : SemVerObj).patch = vp from rfl, hma4, hmi4, hpa4]
      simp
    rw [hfmt]
    have := congrArg List.length hsplitlen
    rw [hmainrec] at this
    simp only [List.length_append, List.length_cons, List.length_nil] at this ⊢
    omega
  · -- prerelease case (with or without build suffix)
    have hpreinv := parsePre_inv hpre
    have hchunksne := splitOnChar_ne_nil '.' (r2.takeWhile (fun c => c ≠ '+'))
    have hprechars : pre.map preIdChars = splitOnChar '.' (r2.takeWhile (fun c => c ≠ '+')) := by
      rw [hpreinv.1, List.map_map]
      have : ∀ ch ∈ splitOnChar '.' (r2.takeWhile (fun c => c ≠ '+')),
          (preIdChars ∘ classifyPreChunk) ch = ch := fun ch hch =>
        classify_chars (hpreinv.2 ch hch)
      exact (List.map_congr_left this).trans (List.map_id _)
    have hJ : intercalateChar '.' (pre.map preIdChars) = r2.takeWhile (fun c => c ≠ '+') := by
      rw [hprechars]
      exact intercalateChar_splitOnChar '.' _
    have hprene : pre ≠ [] := by
      intro he
      rw [he] at hprechars
      exact hchunksne hprechars.symm
    have hfmtlen : ∀ bs0 : List String,
        (fmtChars ⟨vM, vm, vp, pre, bs0⟩).length ≤ l0.length := by
      intro bs0
      have hfmt : fmtChars ⟨vM, vm, vp, pre, bs0⟩ = ma ++ '.' :: (mi ++ '.' :: (pa ++
          ('-' :: (r2.takeWhile (fun c => c ≠ '+'))))) := by
        unfold fmtChars
        rw [show (⟨vM, vm, vp, pre, bs0⟩ : SemVerObj).major = vM from rfl,
          show (⟨vM, vm, vp, pre, bs0⟩ : SemVerObj).minor = vm from rfl,
          show (⟨vM, vm, vp, pre, bs0⟩ : SemVerObj).patch = vp from rfl,
          show (⟨vM, vm, vp, pre, bs0⟩ : SemVerObj).prerelease = pre from rfl,
          hma4, hmi4, hpa4, if_neg (by simpa using hprene), hJ]
        simp [List.append_assoc]
      rw [hfmt]
      have hlen2 := congrArg List.length hsplitlen
      rw [hmainrec, hr] at hlen2
      have htw : (r2.takeWhile (fun c => c ≠ '+')).length ≤ r2.length :=
        List.Sublist.length_le (List.takeWhile_sublist _)
      simp only [List.length_append, List.length_cons] at hlen2 ⊢
      omega
    rcases hcase with ⟨_, rfl⟩ | ⟨b, bs, _, _, rfl⟩
    · exact hfmtlen []
    · exact hfmtlen bs
  · have hfmt : fmtChars ⟨vM, vm, vp, [], bs⟩ = ma ++ '.' :: (mi ++ '.' :: (pa ++ [])) := by
      unfold fmtChars
      rw [show (⟨vM, vm, vp, [], bs⟩ : SemVerObj).major = vM from rfl,
        show (⟨vM, vm, vp, [], bs⟩ : SemVerObj).minor = vm from rfl,
        show (⟨vM, vm, vp, [], bs⟩ : SemVerObj).patch = vp from rfl, hma4, hmi4, hpa4]
      simp
    rw [hfmt]
    have := congrArg List.length hsplitlen
    rw [hmainrec] at this
    simp only [List.length_append, List.length_cons, List.length_nil] at this ⊢
    omega

theorem semverParse_semverFormat {l0 : List Char} {sv : SemVerObj}
    (h : parseChars l0 = some sv) :
    semverParse (semverFormat sv) = some ⟨sv.major, sv.minor, sv.patch, sv.prerelease, []⟩ := by
  have hwf := parse_wf h
  have hl256 : l0.length ≤ 256 := (parseChars_some_inv h).choose_spec.choose_spec.choose_spec.1
  have hlen : (fmtChars sv).length ≤ 256 := le_trans (parse_fmt_length h) hl256
  show parseChars (semverFormat sv).data = _
  have hdata : (semverFormat sv).data = fmtChars sv := rfl
  rw [hdata]
  exact fmt_parse hwf hlen

/-! ## Totality and error lemmas for the catalog pipeline -/


theorem maxSatFold_ok (rc : RangeComp) : ∀ (l : List String) (o : Option (String × SemVerObj)),
    (∀ x ∈ l, (semverParse x).isSome) →
    ∃ o2, l.foldl (maxSatStep rc) (.ok o) = .ok o2 := by
  intro l
  induction l with
  | nil => intro o _; exact ⟨o, rfl⟩
  | cons x xs ih =>
    intro o h
    obtain ⟨sv, hsv⟩ := Option.isSome_iff_exists.mp (h x (List.mem_cons_self _ _))
    have hstep : ∃ o1, maxSatStep rc (.ok o) x = .ok o1 := by
      by_cases hemp : x.data.isEmpty
      · exact ⟨o, by simp only [maxSatStep, if_pos hemp]⟩
      · simp only [maxSatStep, if_neg hemp, hsv]
        by_cases hc : rcTest rc sv
        · simp only [if_pos hc]
          cases o with
          | none => exact ⟨_, rfl⟩
          | some pair =>
            obtain ⟨bs, bsv⟩ := pair
            by_cases hcc : semverCmp bsv sv = -1
            · simp only [if_pos hcc]; exact ⟨_, rfl⟩
            · simp only [if_neg hcc]; exact ⟨_, rfl⟩
        · simp only [if_neg hc]; exact ⟨_, rfl⟩
    obtain ⟨o1, ho1⟩ := hstep
    show ∃ o2, List.foldl (maxSatStep rc) (maxSatStep rc (.ok o) x) xs = .ok o2
    rw [ho1]
    exact ih o1 (fun y hy => h y (List.mem_cons_of_mem _ hy))

theorem mapParseFormat_ok {versions : List String}
    (h : ∀ v ∈ versions, (semverParse v).isSome) :
    ∃ fvs, mapParseFormat versions = .ok fvs ∧ ∀ x ∈ fvs, (semverParse x).isSome := by
  induction versions with
  | nil => exact ⟨[], rfl, by simp⟩
  | cons v rest ih =>
    obtain ⟨sv, hsv⟩ := Option.isSome_iff_exists.mp (h v (List.mem_cons_self _ _))
    obtain ⟨fvs, hfvs, hall⟩ := ih (fun y hy => h y (List.mem_cons_of_mem _ hy))
    refine ⟨semverFormat sv :: fvs, ?_, ?_⟩
    · simp only [mapParseFormat, hsv, hfvs]
    · intro x hx
      rcases List.mem_cons.mp hx with rfl | hx
      · rw [semverParse_semverFormat hsv]
        rfl
      · exact hall x hx

theorem mapParseFormat_error {versions : List String}
    (h : ∃ v ∈ versions, semverParse v = none) :
    ∃ e, mapParseFormat versions = .error e := by
  induction versions with
  | nil =>
    rcases h with ⟨v, hv, _⟩
    simp at hv
  | cons v rest ih =>
    rcases h with ⟨w, hw, hwp⟩
    rcases List.mem_cons.mp hw with rfl | hw
    · exact ⟨String.append "TypeError: semver.parse is null for " w,
        by simp only [mapParseFormat, hwp]⟩
    · cases hp : semverParse v with
      | none => exact ⟨String.append "TypeError: semver.parse is null for " v,
          by simp only [mapParseFormat, hp]⟩
      | some sv =>
        rcases ih ⟨w, hw, hwp⟩ with ⟨e, he⟩
        exact ⟨e, by simp only [mapParseFormat, hp, he]⟩

/-! ## The claims -/

/-- C4 counterexample: at the spec's exact example input — raw
`"0.5.1-beta commit=abcdef-0.5.1-beta.rc2"`, catalog
`["0.5.0","0.5.1-beta.rc1","0.5.1-beta.rc2","0.5.2-beta.rc3"]` — the function
does not return `"0.5.1-beta.rc2"`. -/
theorem c4_counterexample :
    getClosestProtoVersion "0.5.1-beta commit=abcdef-0.5.1-beta.rc2"
      ["0.5.0", "0.5.1-beta.rc1", "0.5.1-beta.rc2", "0.5.2-beta.rc3"] ≠
      Except.ok (some "0.5.1-beta.rc2") := by decide

/-- C4 amended: on that input `semver.clean("abcdef-0.5.1-beta.rc2")` is null
(the commit hash precedes the version), so normalization falls back to the
first token `"0.5.1-beta"` with no build number, and the largest candidate at
most `0.5.1-beta` is `"0.5.0"` (every `0.5.1-beta.rcN` sorts above
`0.5.1-beta`). -/
theorem c4_amended :
    getClosestProtoVersion "0.5.1-beta commit=abcdef-0.5.1-beta.rc2"
      ["0.5.0", "0.5.1-beta.rc1", "0.5.1-beta.rc2", "0.5.2-beta.rc3"] =
      Except.ok (some "0.5.0")
    ∧ normalizeRaw "0.5.1-beta commit=abcdef-0.5.1-beta.rc2" = ("0.5.1-beta", none) :=
  ⟨rfl, rfl⟩

/-- C5 counterexample: at the spec's exact example input — raw
`"0.5.2 commit=abcdef-0.5.2-3"`, catalog `["0.5.2","0.5.2+1","0.5.2+5"]` — the
function does not return `"0.5.2+1"`. -/
theorem c5_counterexample :
    getClosestProtoVersion "0.5.2 commit=abcdef-0.5.2-3"
      ["0.5.2", "0.5.2+1", "0.5.2+5"] ≠ Except.ok (some "0.5.2+1") := by decide

/-- C5 amended: on that input `semver.clean("abcdef-0.5.2-3")` is null (the
commit hash precedes the version), so normalization falls back to `"0.5.2"`
with no build number at all, the build-refinement step is skipped, and the
primary match `"0.5.2"` is returned. -/
theorem c5_amended :
    getClosestProtoVersion "0.5.2 commit=abcdef-0.5.2-3"
      ["0.5.2", "0.5.2+1", "0.5.2+5"] = Except.ok (some "0.5.2")
    ∧ normalizeRaw "0.5.2 commit=abcdef-0.5.2-3" = ("0.5.2", none) :=
  ⟨rfl, rfl⟩

set_option exponentiation.threshold 20000 in
set_option maxRecDepth 4000 in
/-- C6 counterexample: at raw `"1.2.3 commit=1.2.3-9007199254740992-beta"`
(target build number `9007199254740992 = 2^53`) and the catalog
`["1.2.2", "1.2.3+9007199254740993"]`, no candidate build number is at most
the target as written — `9007199254740993 > 9007199254740992` — so by the
claim the primary match `"1.2.3"` should stand; but `Number` rounds the build
text `"9007199254740993"` to `2^53` (ties to even), the `<=` filter passes,
and the refinement rewrites the result to `"1.2.3+9007199254740992"`. -/
theorem c6_counterexample_float_build :
    getClosestProtoVersion "1.2.3 commit=1.2.3-9007199254740992-beta"
      ["1.2.2", "1.2.3+9007199254740993"] = Except.ok (some "1.2.3+9007199254740992") ∧
    (normalizeRaw "1.2.3 commit=1.2.3-9007199254740992-beta").2 =
      some (some (dN 9007199254740992)) ∧
    (9007199254740992 : Nat) < 9007199254740993 := by
  refine ⟨by decide, by decide, by norm_num⟩

set_option exponentiation.threshold 20000 in
set_option maxRecDepth 4000 in
/-- C6 (amended): on exactly representable integer build numbers — target
below `2^53` — the refinement's `closestLower` computes the maximum build
number at most the target, all comparisons and subtractions being exact there
(equivalently, the one numerically closest from below); on build numbers
{1,3,7,10} with target 8 it selects 7; when no build number is at most the
target the primary match stands; and the end-to-end example with that catalog
returns `"0.5.2+7"`.  At or above `2^53`, `Number` rounds distinct build
texts to the same double and the exact-integer reading fails
(`c6_counterexample_float_build`). -/
theorem c6_build_refinement_selects_max :
    (∀ (l : List Nat) (t : Nat), t < 2 ^ 53 →
        closestLower (l.map (fun n => some (dN n))) (some (dN t)) =
          ((l.filter (fun n => n ≤ t)).max?).map (fun n => some (dN n)))
    ∧ closestLower [some (dN 1), some (dN 3), some (dN 7), some (dN 10)] (some (dN 8)) =
        some (some (dN 7))
    ∧ (∀ (version : String) (val : JsNum) (versions : List String) (match0 : Option String),
          closestLower (buildsOf version versions) val = none →
          refineStep version val versions match0 = match0)
    ∧ getClosestProtoVersion "0.5.2 commit=0.5.2-beta-8-abcdef"
        ["0.5.2", "0.5.2+1", "0.5.2+3", "0.5.2+7", "0.5.2+10"] =
        Except.ok (some "0.5.2+7") := by
  refine ⟨fun l t ht => closestLower_dN l t ht, by decide, ?_, by decide⟩
  intro version val versions match0 h
  unfold refineStep
  rw [h]

/-- C6 witness: the target bound discharged at the spec's concrete build set
{1,3,7,10} with target 8. -/
theorem c6_build_refinement_selects_max_witness :
    closestLower ([1, 3, 7, 10].map (fun n => some (dN n))) (some (dN 8)) =
      (([1, 3, 7, 10].filter (fun n => n ≤ 8)).max?).map (fun n => some (dN n)) :=
  c6_build_refinement_selects_max.1 [1, 3, 7, 10] 8 (by norm_num)

/-- C7: a canonical semver string with no whitespace-separated commit token
normalizes to itself with an absent build number (the missing second token
makes `commitString.replace` throw immediately, so the first token is kept
verbatim), and the result still parses. -/
theorem c7_normalize_idempotent_no_commit (v : String) (hv : (semverParse v).isSome)
    (hsp : ' ' ∉ v.data) :
    normalizeRaw v = (v, none) ∧ (semverParse (normalizeRaw v).1).isSome := by
  have h1 : normalizeRaw v = (v, none) := by
    simp only [normalizeRaw]
    rw [splitOnChar_of_not_mem hsp]
    rfl
  exact ⟨h1, by rw [h1]; exact hv⟩

/-- C7 witness at `"1.2.3"`. -/
theorem c7_normalize_idempotent_no_commit_witness :
    normalizeRaw "1.2.3" = ("1.2.3", none) :=
  (c7_normalize_idempotent_no_commit "1.2.3" (by decide) (by decide)).1

/-- C9: the empty catalog yields an absent result for every raw string — the
primary match over no candidates is null whether or not the normalized string
is range-valid, and the refinement has no builds to offer. -/
theorem c9_empty_catalog_absent (raw : String) :
    getClosestProtoVersion raw [] = Except.ok none := by
  have hms : maxSatisfying [] (normalizeRaw raw).1 = .ok none := by
    unfold maxSatisfying
    cases rangeLe (normalizeRaw raw).1 <;> rfl
  have hrs : ∀ val, refineStep (normalizeRaw raw).1 val [] none = none := fun val => rfl
  simp only [getClosestProtoVersion, mapParseFormat]
  rw [hms]
  cases hb : (normalizeRaw raw).2 with
  | none => rfl
  | some val => simp only [hrs]

/-- C9 witness at a concrete raw string. -/
theorem c9_empty_catalog_absent_witness :
    getClosestProtoVersion "0.5.1-beta commit=deadbeef" [] = Except.ok none :=
  c9_empty_catalog_absent "0.5.1-beta commit=deadbeef"

set_option exponentiation.threshold 20000 in
set_option maxRecDepth 4000 in
/-- C10: a closest build number of 0 never overwrites the primary match —
the replacement is guarded by `closestMatch > 0` — and the end-to-end run with
target build 0 and candidate `"0.5.2+0"` returns the primary match
`"0.5.2"`. -/
theorem c10_zero_build_not_applied :
    (∀ (version : String) (val : JsNum) (versions : List String) (match0 : Option String),
        closestLower (buildsOf version versions) val = some (some 0) →
        refineStep version val versions match0 = match0)
    ∧ getClosestProtoVersion "0.5.2 commit=0.5.2-beta-0-abcdef" ["0.5.1", "0.5.2+0"] =
        Except.ok (some "0.5.2") := by
  constructor
  · intro version val versions match0 h
    unfold refineStep
    simp only [h]
    rw [if_neg (by decide)]
  · decide

set_option exponentiation.threshold 20000 in
set_option maxRecDepth 4000 in
/-- C10 witness: the guard hypothesis discharged at a concrete input whose
closest build is exactly 0. -/
theorem c10_zero_build_not_applied_witness :
    refineStep "0.5.2" (some (dN 0)) ["0.5.2+0"] (some "0.5.2") = some "0.5.2" :=
  c10_zero_build_not_applied.1 "0.5.2" (some (dN 0)) ["0.5.2+0"] (some "0.5.2") (by decide)

/-- C2: for every raw string, the function returns without throwing PROVIDED
every catalog entry parses as semver; and the normalization fallback: a missing
commit token, or a commit token whose cleaned remainder is not a semver, leaves
the first token verbatim with no build number. -/
theorem c2_total_on_parsable_catalogs :
    (∀ (raw : String) (versions : List String), (∀ v ∈ versions, (semverParse v).isSome) →
        ∃ r, getClosestProtoVersion raw versions = Except.ok r)
    ∧ (∀ vt : String, normalizeVersion vt none = (vt, none))
    ∧ (∀ (vt cs : String),
        semverClean (String.mk (removeFirstSub "commit=".data cs.data)) = none →
        normalizeVersion vt (some cs) = (vt, none)) := by
  refine ⟨?_, fun vt => rfl, ?_⟩
  · intro raw versions h
    obtain ⟨fvs, hfvs, hall⟩ := mapParseFormat_ok h
    have hms : ∃ r0, maxSatisfying fvs (normalizeRaw raw).1 = .ok r0 := by
      cases hp : rangeLe (normalizeRaw raw).1 with
      | none => exact ⟨none, by simp only [maxSatisfying, hp]⟩
      | some rc =>
        obtain ⟨o2, ho2⟩ := maxSatFold_ok rc fvs none hall
        exact ⟨o2.map Prod.fst, by simp only [maxSatisfying, hp]; rw [ho2]; rfl⟩
    obtain ⟨r0, hr0⟩ := hms
    cases hn : (normalizeRaw raw).2 with
    | some val => exact ⟨refineStep (normalizeRaw raw).1 val versions r0,
        by simp only [getClosestProtoVersion, hfvs, hr0, hn]⟩
    | none => exact ⟨r0, by simp only [getClosestProtoVersion, hfvs, hr0, hn]⟩
  · intro vt cs hclean
    simp only [normalizeVersion, hclean]

/-- C2 witness: both hypotheses discharged at concrete inputs. -/
theorem c2_total_on_parsable_catalogs_witness :
    (∃ r, getClosestProtoVersion "0.5.1-beta commit=abcdef" ["0.5.0", "0.5.1-beta.rc1"] =
      Except.ok r)
    ∧ normalizeVersion "0.5.1-beta" (some "commit=abcdef") = ("0.5.1-beta", none) :=
  ⟨c2_total_on_parsable_catalogs.1 "0.5.1-beta commit=abcdef" ["0.5.0", "0.5.1-beta.rc1"] (by decide),
   c2_total_on_parsable_catalogs.2.2 "0.5.1-beta" "commit=abcdef" (by decide)⟩

/-- C3 amended: a catalog entry that does not parse as semver is NOT excluded
from ranking — `semver.parse(v).format()` throws a TypeError on it and the
whole resolution aborts, for every raw string and any such catalog. -/
theorem c3_malformed_candidate_rejects (raw : String) (versions : List String)
    (h : ∃ v ∈ versions, semverParse v = none) :
    ∃ e, getClosestProtoVersion raw versions = Except.error e := by
  rcases mapParseFormat_error h with ⟨e, he⟩
  exact ⟨e, by simp only [getClosestProtoVersion, he]⟩

/-- C3 witness: the malformed-entry hypothesis discharged concretely. -/
theorem c3_malformed_candidate_rejects_witness :
    ∃ e, getClosestProtoVersion "1.2.3" ["0.5.0", "not-a-version"] = Except.error e :=
  c3_malformed_candidate_rejects "1.2.3" ["0.5.0", "not-a-version"] ⟨"not-a-version", by decide, by rfl⟩

/-- C3 counterexample: with the malformed entry `"not-a-version"` present the
selection does not complete — the call rejects with a TypeError instead of
excluding the entry. -/
theorem c3_counterexample_crash :
    getClosestProtoVersion "1.2.3" ["0.5.0", "not-a-version"] =
      Except.error "TypeError: semver.parse is null for not-a-version" := rfl

/-- C2 counterexample: a catalog entry that does not parse makes the function
throw, so it does not return for every input shape. -/
theorem c2_counterexample_throws :
    getClosestProtoVersion "1.2.3" ["bogus"] =
      Except.error "TypeError: semver.parse is null for bogus" := rfl

/-! ## C8: well-formed raw strings normalize to a valid semver

For a raw string "<semver> commit=<hash>-<suffix>" with a non-empty lower-case
hexadecimal hash, `semver.clean` of the commit remainder is always `null` (the
hash segment is a single dot-free main chunk, so the strict parse rejects it),
so normalization falls back to the first token verbatim -- which is the valid
semver the caller supplied. -/

theorem digit_not_ws {c : Char} (h : isDigitCh c) : ¬ isWsChar c := by
  rcases digit_cases h with rfl|rfl|rfl|rfl|rfl|rfl|rfl|rfl|rfl|rfl <;> decide

theorem digit_not_eq_sign {c : Char} (h : isDigitCh c) : c ≠ '=' := by
  rcases digit_cases h with rfl|rfl|rfl|rfl|rfl|rfl|rfl|rfl|rfl|rfl <;> decide

theorem hex_props {c : Char} (h : isHexLowerCh c) :
    ¬ isWsChar c ∧ c ≠ '=' ∧ c ≠ 'v' ∧ c ≠ '-' ∧ c ≠ '+' ∧ c ≠ '.' ∧ c ≠ ' ' := by
  have hcase : isDigitCh c ∨ c = 'a' ∨ c = 'b' ∨ c = 'c' ∨ c = 'd' ∨ c = 'e' ∨ c = 'f' := by
    simpa [isHexLowerCh, or_assoc] using h
  rcases hcase with hd | rfl | rfl | rfl | rfl | rfl | rfl
  · refine ⟨digit_not_ws hd, digit_not_eq_sign hd, digit_not_v hd, digit_not_dash hd,
      digit_not_plus hd, digit_not_dot hd, ?_⟩
    rcases digit_cases hd with rfl|rfl|rfl|rfl|rfl|rfl|rfl|rfl|rfl|rfl <;> decide
  all_goals exact ⟨by decide, by decide, by decide, by decide, by decide, by decide, by decide⟩

theorem removeFirstSub_append_left {pat : List Char} (hp : pat ≠ []) (x : List Char) :
    removeFirstSub pat (pat ++ x) = x := by
  cases pat with
  | nil => exact absurd rfl hp
  | cons p0 ps =>
    show removeFirstSub (p0 :: ps) (p0 :: (ps ++ x)) = x
    unfold removeFirstSub
    rw [if_pos]
    · show (p0 :: (ps ++ x)).drop (p0 :: ps).length = x
      rw [← List.cons_append]
      exact List.drop_left (p0 :: ps) x
    · rw [ List.isPrefixOf_iff_prefix, ← List.cons_append]
      exact List.prefix_append _ _

theorem dropWhile_append_general (p : Char → Bool) (l1 l2 : List Char) :
    (l1 ++ l2).dropWhile p =
      if (l1.dropWhile p).isEmpty then l2.dropWhile p else l1.dropWhile p ++ l2 := by
  induction l1 with
  | nil => simp
  | cons c cs ih =>
    by_cases hc : p c
    · rw [List.cons_append, List.dropWhile_cons_of_pos hc, ih, List.dropWhile_cons_of_pos hc]
    · rw [List.cons_append, List.dropWhile_cons_of_neg hc, List.dropWhile_cons_of_neg hc]
      simp

theorem trimChars_head_dash {a t : List Char} (hane : a ≠ [])
    (hanws : ∀ c ∈ a, ¬ isWsChar c) :
    ∃ t2, trimChars (a ++ '-' :: t) = a ++ '-' :: t2 := by
  unfold trimChars
  have h1 : (a ++ '-' :: t).dropWhile isWsChar = a ++ '-' :: t := by
    cases ha : a with
    | nil => exact absurd ha hane
    | cons c cs =>
      rw [List.cons_append, List.dropWhile_cons_of_neg]
      have := hanws c (by rw [ha]; exact List.mem_cons_self _ _)
      simpa using this
  rw [h1]
  have h2 : (a ++ '-' :: t).reverse = t.reverse ++ (['-'] ++ a.reverse) := by
    rw [List.reverse_append, List.reverse_cons, List.append_assoc]
  rw [h2, dropWhile_append_general]
  by_cases hemp : (t.reverse.dropWhile isWsChar).isEmpty
  · rw [if_pos hemp]
    refine ⟨[], ?_⟩
    rw [List.singleton_append, List.dropWhile_cons_of_neg (by decide)]
    simp
  · rw [if_neg hemp]
    refine ⟨(t.reverse.dropWhile isWsChar).reverse, ?_⟩
    simp [List.reverse_append, List.append_assoc]

theorem parseChars_hex_dash_none {a t : List Char} (hane : a ≠ [])
    (hhex : ∀ c ∈ a, isHexLowerCh c) :
    parseChars (a ++ '-' :: t) = none := by
  unfold parseChars
  by_cases hlen : (a ++ '-' :: t).length > 256
  · rw [if_pos hlen]
  · rw [if_neg hlen]
    have hstrip : stripV (a ++ '-' :: t) = a ++ '-' :: t := by
      cases ha : a with
      | nil => exact absurd ha hane
      | cons c cs =>
        have hc : isHexLowerCh c := hhex c (by rw [ha]; exact List.mem_cons_self _ _)
        rw [List.cons_append, stripV_cons (hex_props hc).2.2.1]
    have htake : (a ++ '-' :: t).takeWhile (fun c => !(c = '-' || c = '+')) = a := by
      rw [takeWhile_append_of_all (fun c hc => by
        have h2 := hex_props (hhex c hc)
        simp [h2.2.2.2.1, h2.2.2.2.2.1])]
      rw [List.takeWhile_cons_of_neg (by decide)]
      simp
    have hmain : parseMainChunks a = none := by
      unfold parseMainChunks
      rw [splitOnChar_of_not_mem (fun hmem =>
        absurd rfl (hex_props (hhex '.' hmem)).2.2.2.2.2.1)]
    rw [hstrip]
    simp only [htake, hmain]

/-- C8: for every well-formed raw string "<semver> commit=<hash>-<semver-suffix>"
(first token a parsable semver without spaces, hash a non-empty lower-case
hexadecimal string, suffix free of spaces), normalization returns a string that
parses as a valid semantic version.  Concretely `semver.clean` of the commit
remainder "<hash>-<suffix>" is `null`, so the catch-free fallback branch returns
the first token verbatim, and that token parses by hypothesis. -/
theorem c8_wellformed_raw_normalizes_valid (s h t : String)
    (hs : (semverParse s).isSome) (hss : ' ' ∉ s.data)
    (hh : h.data ≠ []) (hhex : ∀ c ∈ h.data, isHexLowerCh c) (hts : ' ' ∉ t.data) :
    normalizeRaw (s ++ " commit=" ++ h ++ "-" ++ t) = (s, none) ∧
    (semverParse (normalizeRaw (s ++ " commit=" ++ h ++ "-" ++ t)).1).isSome := by
  have hdata : (s ++ " commit=" ++ h ++ "-" ++ t).data =
      s.data ++ ' ' :: ("commit=".data ++ (h.data ++ '-' :: t.data)) := by
    show s.data ++ " commit=".data ++ h.data ++ "-".data ++ t.data = _
    simp [List.append_assoc]
  have hnos : ' ' ∉ "commit=".data ++ (h.data ++ '-' :: t.data) := by
    intro hmem
    rcases List.mem_append.mp hmem with hmem | hmem
    · simp at hmem
    · rcases List.mem_append.mp hmem with hmem | hmem
      · exact absurd rfl (hex_props (hhex ' ' hmem)).2.2.2.2.2.2
      · rcases List.mem_cons.mp hmem with hmem | hmem
        · cases hmem
        · exact hts hmem
  have htokens : splitOnChar ' ' (s ++ " commit=" ++ h ++ "-" ++ t).data =
      [s.data, "commit=".data ++ (h.data ++ '-' :: t.data)] := by
    rw [hdata, splitOnChar_append_sep hss, splitOnChar_of_not_mem hnos]
  have hrm : removeFirstSub "commit=".data ("commit=".data ++ (h.data ++ '-' :: t.data)) =
      h.data ++ '-' :: t.data := removeFirstSub_append_left (by decide) _
  have hclean : semverClean (String.mk (h.data ++ '-' :: t.data)) = none := by
    unfold semverClean
    obtain ⟨t2, ht2⟩ := trimChars_head_dash hh (fun c hc => (hex_props (hhex c hc)).1)
    rw [show (String.mk (h.data ++ '-' :: t.data)).data = h.data ++ '-' :: t.data from rfl, ht2]
    have hdrop : dropEqV (h.data ++ '-' :: t2) = h.data ++ '-' :: t2 := by
      cases hhd : h.data with
      | nil => exact absurd hhd hh
      | cons c cs =>
        have hc : isHexLowerCh c := hhex c (by rw [hhd]; exact List.mem_cons_self _ _)
        rw [List.cons_append]
        unfold dropEqV
        rw [List.dropWhile_cons_of_neg (by simp [(hex_props hc).2.1, (hex_props hc).2.2.1])]
    rw [hdrop, parseChars_hex_dash_none hh hhex]
    rfl
  have hmain : normalizeRaw (s ++ " commit=" ++ h ++ "-" ++ t) =
      normalizeVersion s (some (String.mk ("commit=".data ++ (h.data ++ '-' :: t.data)))) := by
    unfold normalizeRaw
    rw [htokens]
    rfl
  have hnorm : normalizeVersion s
      (some (String.mk ("commit=".data ++ (h.data ++ '-' :: t.data)))) = (s, none) := by
    have hcsdata : (String.mk ("commit=".data ++ (h.data ++ '-' :: t.data))).data =
        "commit=".data ++ (h.data ++ '-' :: t.data) := rfl
    simp only [normalizeVersion, hcsdata, hrm, hclean]
  refine ⟨hmain.trans hnorm, ?_⟩
  rw [hmain, hnorm]
  exact hs

/-- Witness for C8 at the concrete raw string
"0.5.1-beta commit=abcdef-0.5.1-beta.rc2". -/
theorem c8_wellformed_raw_normalizes_valid_witness :
    normalizeRaw ("0.5.1-beta" ++ " commit=" ++ "abcdef" ++ "-" ++ "0.5.1-beta.rc2") =
      ("0.5.1-beta", none) ∧
    (semverParse (normalizeRaw
      ("0.5.1-beta" ++ " commit=" ++ "abcdef" ++ "-" ++ "0.5.1-beta.rc2")).1).isSome :=
  c8_wellformed_raw_normalizes_valid "0.5.1-beta" "abcdef" "0.5.1-beta.rc2"
    (by decide) (by decide) (by decide) (by decide) (by decide)

/-! ## C1: the primary ordering invariant and the float-precedence comparator -/

theorem cmpNat_self (a : Nat) : cmpNat a a = 0 := by simp [cmpNat]

theorem jsStrictEq_self (a : PreId) : jsStrictEq a a = true := by
  cases a <;> simp [jsStrictEq]

theorem comparePreLoop_self (l : List PreId) : comparePreLoop l l = 0 := by
  induction l with
  | nil => rfl
  | cons a as ih => simp [comparePreLoop, jsStrictEq_self, ih]

theorem comparePre_self (l : List PreId) : comparePre l l = 0 := by
  cases l with
  | nil => rfl
  | cons a as => exact comparePreLoop_self (a :: as)

theorem semverCmp_self (sv : SemVerObj) : semverCmp sv sv = 0 := by
  simp [semverCmp, cmpNat_self, comparePre_self]

theorem fmt_no_plus {sv : SemVerObj} (hwf : svWF sv) : '+' ∉ fmtChars sv := by
  intro hmem
  unfold fmtChars at hmem
  rcases List.mem_append.mp hmem with h | h
  · rcases List.mem_append.mp h with h | h
    · rcases List.mem_append.mp h with h | h
      · exact absurd (natChars_all_digit _ _ h) (by decide)
      · rcases List.mem_cons.mp h with h | h
        · exact absurd h (by decide)
        · exact absurd (natChars_all_digit _ _ h) (by decide)
    · rcases List.mem_cons.mp h with h | h
      · exact absurd h (by decide)
      · exact absurd (natChars_all_digit _ _ h) (by decide)
  · split at h
    · simp at h
    · rcases List.mem_cons.mp h with h | h
      · exact absurd h (by decide)
      · rcases mem_intercalateChar h with h | ⟨p, hp, hcp⟩
        · exact absurd h (by decide)
        · rcases List.mem_map.mp hp with ⟨id, hid, rfl⟩
          exact absurd (preIdChars_ident (hwf.2.2.2 id hid) _ hcp) (by decide)

theorem semverClean_no_plus {s full : String} (h : semverClean s = some full) :
    '+' ∉ full.data := by
  unfold semverClean at h
  cases hp : parseChars (dropEqV (trimChars s.data)) with
  | none => rw [hp] at h; simp at h
  | some sv =>
    rw [hp] at h
    have hfull : full = semverFormat sv := (Option.some.inj h).symm
    rw [hfull]
    show '+' ∉ fmtChars sv
    exact fmt_no_plus (parse_wf hp)

theorem truncate_no_plus {l : List Char} (h : '+' ∉ l) :
    '+' ∉ intercalateChar '-' ((splitOnChar '-' l).take 3) := by
  intro hmem
  rcases mem_intercalateChar hmem with he | ⟨p, hp, hcp⟩
  · exact absurd he (by decide)
  · exact h (mem_of_mem_splitOnChar (List.mem_of_mem_take hp) hcp)

theorem stripV_subset {l : List Char} : ∀ c ∈ stripV l, c ∈ l := by
  intro c hc
  unfold stripV at hc
  split at hc
  · exact List.mem_cons_of_mem _ hc
  · exact hc

theorem parse_build_nil {l0 : List Char} {sv : SemVerObj} (hnp : '+' ∉ l0)
    (h : parseChars l0 = some sv) : sv.build = [] := by
  have hsub : ∀ c ∈ (stripV l0).dropWhile (fun c => !(c = '-' || c = '+')), c ∈ l0 :=
    fun c hc => stripV_subset c ((List.dropWhile_sublist _).subset hc)
  rcases parseChars_some_inv h with ⟨vM, vm, vp, hlen, hmain, hrest⟩
  rcases parseRest_some_inv hrest with ⟨_, rfl⟩ | ⟨r2, pre, hr, hpre, hcase⟩ | ⟨b, bs, hr, hb, rfl⟩
  · rfl
  · rcases hcase with ⟨_, rfl⟩ | ⟨b, bs, hdrop, hb, rfl⟩
    · rfl
    · have h1 : '+' ∈ r2.dropWhile (fun c => c ≠ '+') := by
        rw [hdrop]; exact List.mem_cons_self _ _
      have h2 : '+' ∈ r2 := (List.dropWhile_sublist _).subset h1
      have h3 : '+' ∈ (stripV l0).dropWhile (fun c => !(c = '-' || c = '+')) := by
        rw [hr]; exact List.mem_cons_of_mem _ h2
      exact absurd (hsub _ h3) hnp
  · have h3 : '+' ∈ (stripV l0).dropWhile (fun c => !(c = '-' || c = '+')) := by
      rw [hr]; exact List.mem_cons_self _ _
    exact absurd (hsub _ h3) hnp

theorem fmtChars_clear_pre_length (sv : SemVerObj) :
    (fmtChars { sv with prerelease := ([] : List PreId) }).length ≤ (fmtChars sv).length := by
  have hL : fmtChars { sv with prerelease := ([] : List PreId) } =
      ((natChars sv.major ++ ('.' :: natChars sv.minor)) ++ ('.' :: natChars sv.patch)) ++
        ([] : List Char) := rfl
  have hR : fmtChars sv =
      ((natChars sv.major ++ ('.' :: natChars sv.minor)) ++ ('.' :: natChars sv.patch)) ++
        (if sv.prerelease.isEmpty then []
         else '-' :: intercalateChar '.' (sv.prerelease.map preIdChars)) := rfl
  rw [hL, hR]
  simp [List.length_append]

theorem semverPrefixOf_no_plus {s : String} (h : '+' ∉ s.data) : semverPrefixOf s = s := by
  unfold semverPrefixOf
  rw [takeWhile_eq_self_of_all (fun c hc => by simp; exact fun e => h (e ▸ hc))]

theorem semverPrefixOf_append_plus {s : String} {t : List Char} (h : '+' ∉ s.data) :
    semverPrefixOf (String.mk (s.data ++ '+' :: t)) = s := by
  unfold semverPrefixOf
  have hd : (String.mk (s.data ++ '+' :: t)).data = s.data ++ '+' :: t := rfl
  rw [hd, takeWhile_append_of_all (fun c hc => by simp; exact fun e => h (e ▸ hc))]
  rw [List.takeWhile_cons_of_neg (by simp)]
  rw [List.append_nil]

theorem bool_and_left {a b : Bool} (h : (a && b) = true) : a = true := by
  cases a
  · simp at h
  · rfl

theorem bool_and_right {a b : Bool} (h : (a && b) = true) : b = true := by
  cases b
  · simp at h
  · rfl

theorem parsePre_chars {l : List Char} {pre : List PreId} (h : parsePre l = some pre) :
    ∀ c ∈ l, c = '.' ∨ isIdentCh c = true := by
  obtain ⟨-, hall⟩ := parsePre_inv h
  intro c hc
  have hc2 : c ∈ intercalateChar '.' (splitOnChar '.' l) := by
    rw [intercalateChar_splitOnChar]
    exact hc
  rcases mem_intercalateChar hc2 with rfl | ⟨p, hp, hcp⟩
  · exact Or.inl rfl
  · right
    have hpc : isPreChunk p = true := hall p hp
    unfold isPreChunk at hpc
    split at hpc
    · next hd =>
      have hdc : isDigitCh c = true := List.all_eq_true.mp hd c hcp
      simp [isIdentCh, hdc]
    · next hd =>
      exact List.all_eq_true.mp (bool_and_right hpc) c hcp

theorem parseBuild_chars {l : List Char} {bs : List String} (h : parseBuild l = some bs) :
    ∀ c ∈ l, c = '.' ∨ isIdentCh c = true := by
  simp only [parseBuild] at h
  split at h
  · next hall =>
    intro c hc
    have hc2 : c ∈ intercalateChar '.' (splitOnChar '.' l) := by
      rw [intercalateChar_splitOnChar]
      exact hc
    rcases mem_intercalateChar hc2 with rfl | ⟨p, hp, hcp⟩
    · exact Or.inl rfl
    · right
      have hpc : isBuildChunk p = true := List.all_eq_true.mp hall p hp
      exact List.all_eq_true.mp (bool_and_right hpc) c hcp
  · exact Option.noConfusion h

theorem parseMainChunks_chars {main : List Char} {vM vm vp : Nat}
    (h : parseMainChunks main = some (vM, vm, vp)) :
    ∀ c ∈ main, c = '.' ∨ isDigitCh c = true := by
  rcases parseMainChunks_inv h with ⟨ma, mi, pa, hsplit, hma, hmi, hpa⟩
  intro c hc
  have hc2 : c ∈ intercalateChar '.' (splitOnChar '.' main) := by
    rw [intercalateChar_splitOnChar]
    exact hc
  rw [hsplit] at hc2
  rcases mem_intercalateChar hc2 with rfl | ⟨p, hp, hcp⟩
  · exact Or.inl rfl
  · right
    have hnum : isNumericChunk p = true := by
      simp at hp
      rcases hp with rfl | rfl | rfl
      · exact (parseNumId_inv hma).1
      · exact (parseNumId_inv hmi).1
      · exact (parseNumId_inv hpa).1
    cases p with
    | nil => exact absurd hnum (by decide)
    | cons d ds =>
      simp only [isNumericChunk] at hnum
      exact List.all_eq_true.mp (bool_and_left hnum) c hcp

theorem parseRest_chars {vM vm vp : Nat} {r : List Char} {sv : SemVerObj}
    (h : parseRest vM vm vp r = some sv) :
    ∀ c ∈ r, c = '.' ∨ c = '+' ∨ isIdentCh c = true := by
  rcases parseRest_some_inv h with ⟨rfl, -⟩ | ⟨r2, pre, rfl, hpre, hcase⟩ | ⟨b, bs, rfl, hb, -⟩
  · intro c hc
    simp at hc
  · intro c hc
    rcases List.mem_cons.mp hc with rfl | hc2
    · exact Or.inr (Or.inr (by decide))
    · have hsplitr2 : r2.takeWhile (fun c => c ≠ '+') ++ r2.dropWhile (fun c => c ≠ '+') = r2 :=
        List.takeWhile_append_dropWhile _ _
      have hc3 : c ∈ r2.takeWhile (fun c => c ≠ '+') ++ r2.dropWhile (fun c => c ≠ '+') := by
        rw [hsplitr2]
        exact hc2
      rcases List.mem_append.mp hc3 with htk | hdp
      · rcases parsePre_chars hpre c htk with h1 | h1
        · exact Or.inl h1
        · exact Or.inr (Or.inr h1)
      · rcases hcase with ⟨hdeq, -⟩ | ⟨b, bs, hdeq, hb, -⟩
        · rw [hdeq] at hdp
          simp at hdp
        · rw [hdeq] at hdp
          rcases List.mem_cons.mp hdp with rfl | hcb
          · exact Or.inr (Or.inl rfl)
          · rcases parseBuild_chars hb c hcb with h1 | h1
            · exact Or.inl h1
            · exact Or.inr (Or.inr h1)
  · intro c hc
    rcases List.mem_cons.mp hc with rfl | hcb
    · exact Or.inr (Or.inl rfl)
    · rcases parseBuild_chars hb c hcb with h1 | h1
      · exact Or.inl h1
      · exact Or.inr (Or.inr h1)

theorem stripV_chars {l0 : List Char} {sv : SemVerObj} (h : parseChars l0 = some sv) :
    ∀ c ∈ stripV l0, c = '.' ∨ c = '+' ∨ isIdentCh c = true := by
  rcases parseChars_some_inv h with ⟨vM, vm, vp, hlen, hmain, hrest⟩
  intro c hc
  have hdecomp : (stripV l0).takeWhile (fun c => !(c = '-' || c = '+')) ++
      (stripV l0).dropWhile (fun c => !(c = '-' || c = '+')) = stripV l0 :=
    List.takeWhile_append_dropWhile _ _
  have hc2 : c ∈ (stripV l0).takeWhile (fun c => !(c = '-' || c = '+')) ++
      (stripV l0).dropWhile (fun c => !(c = '-' || c = '+')) := by
    rw [hdecomp]
    exact hc
  rcases List.mem_append.mp hc2 with htk | hdp
  · rcases parseMainChunks_chars hmain c htk with h1 | h1
    · exact Or.inl h1
    · exact Or.inr (Or.inr (by simp [isIdentCh, h1]))
  · exact parseRest_chars hrest c hdp

theorem svChar_not_ws {c : Char} (h : c = '.' ∨ c = '+' ∨ isIdentCh c = true) :
    isJsWs c = false := by
  rcases h with rfl | rfl | h
  · decide
  · decide
  · cases hws : isJsWs c
    · rfl
    · exfalso
      have hd := hws
      simp only [isJsWs, Bool.or_eq_true, decide_eq_true_eq] at hd
      rcases hd with ((((rfl | rfl) | rfl) | rfl) | rfl) | rfl <;> exact absurd h (by decide)

theorem digit_ne_ve {c : Char} (h : isDigitCh c = true) : (c = 'v' || c = '=') = false := by
  have hd := h
  simp only [isDigitCh, Bool.or_eq_true, decide_eq_true_eq] at hd
  rcases hd with ((((((((rfl | rfl) | rfl) | rfl) | rfl) | rfl) | rfl) | rfl) | rfl) | rfl <;>
    decide

theorem numeric_not_x {l : List Char} (h : isNumericChunk l = true) : isXChunk l = false := by
  cases hx : isXChunk l
  · rfl
  · exfalso
    have hd := hx
    simp only [isXChunk, Bool.or_eq_true, decide_eq_true_eq] at hd
    rcases hd with (rfl | rfl) | rfl <;> exact absurd h (by decide)

theorem dropWhile_eq_self_of_none {p : Char → Bool} : ∀ {l : List Char},
    (∀ c ∈ l, p c = false) → l.dropWhile p = l := by
  intro l h
  cases l with
  | nil => rfl
  | cons a r =>
    have ha := h a (List.mem_cons_self a r)
    simp [List.dropWhile, ha]

theorem trimJs_eq_self {l : List Char} (h : ∀ c ∈ l, isJsWs c = false) :
    ((l.dropWhile isJsWs).reverse.dropWhile isJsWs).reverse = l := by
  rw [dropWhile_eq_self_of_none h,
    dropWhile_eq_self_of_none (fun c hc => h c (List.mem_reverse.mp hc))]
  exact List.reverse_reverse l

theorem stripV_cons_ne {a : Char} {r : List Char} (ha : a ≠ 'v') : stripV (a :: r) = a :: r := by
  unfold stripV
  split
  · next heq => exact absurd (List.cons.inj heq).1 ha
  · rfl

theorem mem_stripV_or {c : Char} {l : List Char} (h : c ∈ l) : c = 'v' ∨ c ∈ stripV l := by
  cases l with
  | nil => simp at h
  | cons a r =>
    by_cases ha : a = 'v'
    · subst ha
      rcases List.mem_cons.mp h with rfl | hr
      · exact Or.inl rfl
      · exact Or.inr hr
    · rw [stripV_cons_ne ha]
      exact Or.inr h

theorem parseChars_head_digit {l0 : List Char} {sv : SemVerObj}
    (h : parseChars l0 = some sv) :
    ∃ d r, stripV l0 = d :: r ∧ isDigitCh d = true := by
  rcases parseChars_some_inv h with ⟨vM, vm, vp, hlen, hmain, hrest⟩
  rcases parseMainChunks_inv hmain with ⟨ma, mi, pa, hsplit, hma, hmi, hpa⟩
  have hnum := (parseNumId_inv hma).1
  cases hma2 : ma with
  | nil =>
    rw [hma2] at hnum
    exact absurd hnum (by decide)
  | cons d ds =>
    rw [hma2] at hnum
    have hd : isDigitCh d = true := by
      simp only [isNumericChunk] at hnum
      exact List.all_eq_true.mp (bool_and_left hnum) d (List.mem_cons_self d ds)
    have hmainrec : (stripV l0).takeWhile (fun c => !(c = '-' || c = '+')) =
        ma ++ '.' :: (mi ++ '.' :: pa) := by
      have hi := intercalateChar_splitOnChar '.'
        ((stripV l0).takeWhile (fun c => !(c = '-' || c = '+')))
      rw [hsplit] at hi
      rw [← hi]
      rfl
    cases hsl : stripV l0 with
    | nil =>
      rw [hsl, hma2] at hmainrec
      simp at hmainrec
    | cons a r =>
      rw [hsl] at hmainrec
      by_cases hpa2 : (!(a = '-' || a = '+')) = true
      · rw [List.takeWhile_cons] at hmainrec
        rw [if_pos hpa2, hma2] at hmainrec
        have had : a = d := (List.cons.inj hmainrec).1
        exact ⟨a, r, rfl, by rw [had]; exact hd⟩
      · rw [List.takeWhile_cons] at hmainrec
        rw [if_neg hpa2, hma2] at hmainrec
        simp at hmainrec

theorem dropWhile_ve_eq_stripV {l0 : List Char} {sv : SemVerObj}
    (h : parseChars l0 = some sv) :
    l0.dropWhile (fun c => c = 'v' || c = '=') = stripV l0 := by
  obtain ⟨d, r, hsl, hd⟩ := parseChars_head_digit h
  have hstop : ((d : Char) = 'v' || d = '=') = false := digit_ne_ve hd
  cases l0 with
  | nil => rfl
  | cons a t =>
    by_cases ha : a = 'v'
    · subst ha
      have hsv : stripV ('v' :: t) = t := rfl
      rw [hsv] at hsl
      rw [hsv, List.dropWhile_cons_of_pos (by decide), hsl]
      exact List.dropWhile_cons_of_neg (by simp [hstop])
    · have hsv : stripV (a :: t) = a :: t := stripV_cons_ne ha
      rw [hsv] at hsl
      have had : a = d := (List.cons.inj hsl).1
      rw [hsv]
      exact List.dropWhile_cons_of_neg (by rw [had]; simp [hstop])

theorem xshape_fullv {l0 : List Char} {sv : SemVerObj} (h : parseChars l0 = some sv) :
    xshape (stripV l0) = XShape.fullv := by
  rcases parseChars_some_inv h with ⟨vM, vm, vp, hlen, hmain, hrest⟩
  rcases parseMainChunks_inv hmain with ⟨ma, mi, pa, hsplit, hma, hmi, hpa⟩
  have hna := (parseNumId_inv hma).1
  have hnb := (parseNumId_inv hmi).1
  have hnc := (parseNumId_inv hpa).1
  have hxa := numeric_not_x hna
  have hxb := numeric_not_x hnb
  have hxc := numeric_not_x hnc
  simp only [xshape]
  rw [hsplit]
  simp [hxa, hxb, hxc, hna, hnb, hnc]

theorem rangeLe_of_parse {v : String} {sv : SemVerObj} (h : semverParse v = some sv) :
    rangeLe v = some (RangeComp.le sv) := by
  have hp : parseChars v.data = some sv := h
  have hcls : ∀ c ∈ v.data, isJsWs c = false := by
    intro c hc
    rcases mem_stripV_or hc with rfl | hcs
    · decide
    · exact svChar_not_ws (by
        rcases stripV_chars hp c hcs with h1 | h1 | h1
        · exact Or.inl h1
        · exact Or.inr (Or.inl h1)
        · exact Or.inr (Or.inr h1))
  have htrim : ((v.data.dropWhile isJsWs).reverse.dropWhile isJsWs).reverse = v.data :=
    trimJs_eq_self hcls
  simp only [rangeLe]
  rw [htrim, dropWhile_ve_eq_stripV hp, xshape_fullv hp]
  show (parseChars v.data).map RangeComp.le = some (RangeComp.le sv)
  rw [hp]
  rfl

theorem maxSatFold_error (rc : RangeComp) (e : String) :
    ∀ l : List String, l.foldl (maxSatStep rc) (.error e) = .error e := by
  intro l
  induction l with
  | nil => rfl
  | cons x xs ih =>
    show List.foldl (maxSatStep rc) (maxSatStep rc (.error e) x) xs = _
    rw [show maxSatStep rc (.error e) x = .error e from rfl]
    exact ih

theorem maxSatFold_inv (rc : RangeComp) :
    ∀ (l : List String) (o o2 : Option (String × SemVerObj)),
    (∀ x ∈ l, '+' ∉ x.data) →
    (∀ p, o = some p → '+' ∉ p.1.data ∧ semverParse p.1 = some p.2 ∧ rcTest rc p.2 = true) →
    l.foldl (maxSatStep rc) (.ok o) = .ok o2 →
    ∀ p, o2 = some p → '+' ∉ p.1.data ∧ semverParse p.1 = some p.2 ∧ rcTest rc p.2 = true := by
  intro l
  induction l with
  | nil =>
    intro o o2 _ ho hf
    have h1 : o = o2 := Except.ok.inj hf
    exact h1 ▸ ho
  | cons x xs ih =>
    intro o o2 hel ho hf
    have hf2 : List.foldl (maxSatStep rc) (maxSatStep rc (.ok o) x) xs = .ok o2 := hf
    by_cases hemp : x.data.isEmpty
    · have hstep : maxSatStep rc (.ok o) x = .ok o := by
        simp only [maxSatStep, if_pos hemp]
      rw [hstep] at hf2
      exact ih _ o2 (fun y hy => hel y (List.mem_cons_of_mem _ hy)) ho hf2
    · cases hpx : semverParse x with
      | none =>
        have hstep : maxSatStep rc (.ok o) x = .error (String.append "Invalid Version: " x) := by
          simp only [maxSatStep, if_neg hemp, hpx]
        rw [hstep, maxSatFold_error] at hf2
        exact Except.noConfusion hf2
      | some sv =>
        by_cases hc : rcTest rc sv
        · cases o with
          | none =>
            have hstep : maxSatStep rc (.ok none) x = .ok (some (x, sv)) := by
              simp only [maxSatStep, if_neg hemp, hpx]
              simp only [if_pos hc]
            rw [hstep] at hf2
            refine ih (some (x, sv)) o2 (fun y hy => hel y (List.mem_cons_of_mem _ hy)) ?_ hf2
            intro p hp
            have hp2 : p = (x, sv) := (Option.some.inj hp).symm
            rw [hp2]
            exact ⟨hel x (List.mem_cons_self _ _), hpx, hc⟩
          | some pair =>
            obtain ⟨bs, bsv⟩ := pair
            by_cases hcc : semverCmp bsv sv = -1
            · have hstep : maxSatStep rc (.ok (some (bs, bsv))) x = .ok (some (x, sv)) := by
                simp only [maxSatStep, if_neg hemp, hpx]
                simp only [if_pos hc, if_pos hcc]
              rw [hstep] at hf2
              refine ih (some (x, sv)) o2 (fun y hy => hel y (List.mem_cons_of_mem _ hy)) ?_ hf2
              intro p hp
              have hp2 : p = (x, sv) := (Option.some.inj hp).symm
              rw [hp2]
              exact ⟨hel x (List.mem_cons_self _ _), hpx, hc⟩
            · have hstep : maxSatStep rc (.ok (some (bs, bsv))) x = .ok (some (bs, bsv)) := by
                simp only [maxSatStep, if_neg hemp, hpx]
                simp only [if_pos hc, if_neg hcc]
              rw [hstep] at hf2
              exact ih _ o2 (fun y hy => hel y (List.mem_cons_of_mem _ hy)) ho hf2
        · have hstep : maxSatStep rc (.ok o) x = .ok o := by
            simp only [maxSatStep, if_neg hemp, hpx]
            simp only [if_neg hc]
          rw [hstep] at hf2
          exact ih _ o2 (fun y hy => hel y (List.mem_cons_of_mem _ hy)) ho hf2

theorem maxSatisfying_le {fvs : List String} {v r : String} {nsv : SemVerObj}
    (hel : ∀ x ∈ fvs, '+' ∉ x.data)
    (hnv : semverParse v = some nsv)
    (h : maxSatisfying fvs v = .ok (some r)) :
    ∃ rsv, semverParse r = some rsv ∧ semverCmp rsv nsv ≤ 0 ∧ '+' ∉ r.data := by
  unfold maxSatisfying at h
  rw [rangeLe_of_parse hnv] at h
  have h2 : Except.map (fun o => Option.map Prod.fst o)
      (List.foldl (maxSatStep (RangeComp.le nsv)) (Except.ok none) fvs) = Except.ok (some r) := h
  cases hf : fvs.foldl (maxSatStep (.le nsv)) (.ok none) with
  | error e =>
    rw [hf] at h2
    exact Except.noConfusion h2
  | ok o2 =>
    rw [hf] at h2
    have ho2 : o2.map Prod.fst = some r := Except.ok.inj h2
    cases o2 with
    | none => simp at ho2
    | some p =>
      have hpr : p.1 = r := Option.some.inj ho2
      have hinv := maxSatFold_inv (.le nsv) fvs none (some p) hel
        (fun q hq => Option.noConfusion hq) hf p rfl
      exact ⟨p.2, by rw [← hpr]; exact hinv.2.1, of_decide_eq_true hinv.2.2,
        by rw [← hpr]; exact hinv.1⟩

theorem mapParseFormat_no_plus : ∀ {versions fvs : List String},
    mapParseFormat versions = .ok fvs → ∀ x ∈ fvs, '+' ∉ x.data := by
  intro versions
  induction versions with
  | nil =>
    intro fvs h x hx
    have h1 : ([] : List String) = fvs := Except.ok.inj h
    rw [← h1] at hx
    simp at hx
  | cons v rest ih =>
    intro fvs h x hx
    cases hpv : semverParse v with
    | none =>
      simp only [mapParseFormat, hpv] at h
      exact Except.noConfusion h
    | some sv =>
      cases hmr : mapParseFormat rest with
      | error e =>
        simp only [mapParseFormat, hpv, hmr] at h
        exact Except.noConfusion h
      | ok fs =>
        simp only [mapParseFormat, hpv, hmr] at h
        have h1 : semverFormat sv :: fs = fvs := Except.ok.inj h
        rw [← h1] at hx
        rcases List.mem_cons.mp hx with rfl | hx
        · show '+' ∉ fmtChars sv
          exact fmt_no_plus (parse_wf hpv)
        · exact ih hmr x hx

theorem normalizeVersion_some_build {vt : String} {cs : Option String} {val : JsNum}
    (h : (normalizeVersion vt cs).2 = some val) :
    ∃ nsv, semverParse (normalizeVersion vt cs).1 = some nsv ∧
      '+' ∉ (normalizeVersion vt cs).1.data := by
  cases cs with
  | none => simp [normalizeVersion] at h
  | some c =>
    cases hcl : semverClean (String.mk (removeFirstSub "commit=".data c.data)) with
    | none => simp [normalizeVersion, hcl] at h
    | some full =>
      have hVnp : '+' ∉ intercalateChar '-' ((splitOnChar '-' full.data).take 3) :=
        truncate_no_plus (semverClean_no_plus hcl)
      cases hpv : semverParse
          (String.mk (intercalateChar '-' ((splitOnChar '-' full.data).take 3))) with
      | none => simp [normalizeVersion, hcl, hpv] at h
      | some parse =>
        have hb : parse.build = [] := parse_build_nil hVnp hpv
        cases hh : parse.prerelease.head? with
        | none =>
          simp only [normalizeVersion, hcl, hpv, hh] at h
          rw [hb] at h
          simp [buildInfo] at h
        | some pid =>
          cases pid with
          | num n =>
            simp only [normalizeVersion, hcl, hpv, hh] at h
            rw [hb] at h
            simp [buildInfo] at h
          | str s =>
            simp only [normalizeVersion, hcl, hpv, hh] at h ⊢
            split at h
            · next hcond =>
              rw [if_pos hcond]
              have hwf := parse_wf hpv
              obtain ⟨hM, hm2, hp2, _⟩ := hwf
              have hwf0 : svWF { parse with prerelease := ([] : List PreId) } :=
                ⟨hM, hm2, hp2, by intro id hid; simp at hid⟩
              obtain ⟨vM0, vm0, vp0, hlen256, _, _⟩ := parseChars_some_inv hpv
              have hlen0 : (fmtChars { parse with prerelease := ([] : List PreId) }).length ≤ 256 :=
                le_trans (fmtChars_clear_pre_length parse)
                  (le_trans (parse_fmt_length hpv) hlen256)
              refine ⟨⟨parse.major, parse.minor, parse.patch, [], []⟩, ?_, ?_⟩
              · show parseChars (fmtChars { parse with prerelease := ([] : List PreId) }) = _
                exact fmt_parse hwf0 hlen0
              · show ('+' : Char) ∉ fmtChars { parse with prerelease := ([] : List PreId) }
                exact fmt_no_plus hwf0
            · next hcond =>
              rw [hb] at h
              simp [buildInfo] at h

theorem normalizeRaw_some_build {raw : String} {val : JsNum}
    (h : (normalizeRaw raw).2 = some val) :
    ∃ nsv, semverParse (normalizeRaw raw).1 = some nsv ∧ '+' ∉ (normalizeRaw raw).1.data :=
  normalizeVersion_some_build h

set_option exponentiation.threshold 20000 in
set_option maxRecDepth 4000 in
/-- C1 counterexample: at raw `"1.2.3-9007199254740992"` with the catalog
`["1.2.3-9007199254740993"]`, the function returns the candidate
`1.2.3-9007199254740993`, whose semver portion is strictly greater than the
normalized version under standard semver precedence (`cmpSemStd = 1`): the
implementation compares the two numeric prerelease identifiers as IEEE-754
doubles, and both round to 2^53, so the `<= version` range test passes. -/
theorem c1_counterexample_float_merge :
    getClosestProtoVersion "1.2.3-9007199254740992" ["1.2.3-9007199254740993"] =
      Except.ok (some "1.2.3-9007199254740993") ∧
    (normalizeRaw "1.2.3-9007199254740992").1 = "1.2.3-9007199254740992" ∧
    semverPrefixOf "1.2.3-9007199254740993" = "1.2.3-9007199254740993" ∧
    semverParse "1.2.3-9007199254740993" =
      some ⟨1, 2, 3, [PreId.str "9007199254740993"], []⟩ ∧
    semverParse "1.2.3-9007199254740992" =
      some ⟨1, 2, 3, [PreId.str "9007199254740992"], []⟩ ∧
    cmpSemStd ⟨1, 2, 3, [PreId.str "9007199254740993"], []⟩
      ⟨1, 2, 3, [PreId.str "9007199254740992"], []⟩ = 1 := by
  refine ⟨rfl, rfl, rfl, rfl, rfl, by decide⟩

/-- C1 (amended): whenever the normalized version is a full valid semver, a
present result is never strictly greater than it under the precedence the
implementation actually computes (`semverCmp`, which compares numeric
prerelease identifiers as IEEE-754 doubles): the result's semver portion
parses, the normalized version parses, and the comparison is at most 0.  The
hypothesis matters: for a partial normalized version the range `<= v` is an
x-range (`<= 1.2` desugars to `< 1.3.0`) and candidates strictly above `v`
can be returned.  Under standard exact-integer precedence the invariant fails
even for full semvers (`c1_counterexample_float_merge`). -/
theorem c1_result_never_above_normalized (raw : String) (versions : List String) (r : String)
    (hn : (semverParse (normalizeRaw raw).1).isSome)
    (h : getClosestProtoVersion raw versions = Except.ok (some r)) :
    ∃ rsv nsv, semverParse (semverPrefixOf r) = some rsv ∧
      semverParse (normalizeRaw raw).1 = some nsv ∧
      semverCmp rsv nsv ≤ 0 := by
  obtain ⟨nsv0, hnsv0⟩ := Option.isSome_iff_exists.mp hn
  unfold getClosestProtoVersion at h
  cases hmp : mapParseFormat versions with
  | error e => simp only [hmp] at h; exact Except.noConfusion h
  | ok fvs =>
    cases hms : maxSatisfying fvs (normalizeRaw raw).1 with
    | error e => simp only [hmp, hms] at h; exact Except.noConfusion h
    | ok match0 =>
      have hgoal : match0 = some r →
          ∃ rsv nsv, semverParse (semverPrefixOf r) = some rsv ∧
            semverParse (normalizeRaw raw).1 = some nsv ∧ semverCmp rsv nsv ≤ 0 := by
        intro he
        rw [he] at hms
        obtain ⟨rsv, h1, h3, hnp⟩ :=
          maxSatisfying_le (mapParseFormat_no_plus hmp) hnsv0 hms
        exact ⟨rsv, nsv0, by rw [semverPrefixOf_no_plus hnp]; exact h1, hnsv0, h3⟩
      cases hvb : (normalizeRaw raw).2 with
      | none =>
        simp only [hmp, hms, hvb] at h
        exact hgoal (Except.ok.inj h)
      | some val =>
        simp only [hmp, hms, hvb] at h
        have hr : refineStep (normalizeRaw raw).1 val versions match0 = some r :=
          Except.ok.inj h
        obtain ⟨nsv, hnsv, hnopl⟩ := normalizeRaw_some_build hvb
        unfold refineStep at hr
        cases hcl2 : closestLower (buildsOf (normalizeRaw raw).1 versions) val with
        | none =>
          simp only [hcl2] at hr
          exact hgoal hr
        | some q0 =>
          cases q0 with
          | none =>
            simp only [hcl2] at hr
            exact hgoal hr
          | some q =>
            simp only [hcl2] at hr
            by_cases hq : dltB (.fin 0) q
            · rw [if_pos hq] at hr
              have hrr : r = String.mk ((normalizeRaw raw).1.data ++ '+' :: jsNumToChars q) :=
                (Option.some.inj hr).symm
              refine ⟨nsv, nsv, ?_, hnsv, by rw [semverCmp_self]⟩
              rw [hrr, semverPrefixOf_append_plus hnopl]
              exact hnsv
            · rw [if_neg hq] at hr
              exact hgoal hr

/-- Witness for the amended C1 theorem at raw `"1.2.3"`, catalog `["1.2.2"]`,
result `"1.2.2"`. -/
theorem c1_result_never_above_normalized_witness :
    ∃ rsv nsv, semverParse (semverPrefixOf "1.2.2") = some rsv ∧
      semverParse (normalizeRaw "1.2.3").1 = some nsv ∧
      semverCmp rsv nsv ≤ 0 :=
  c1_result_never_above_normalized "1.2.3" ["1.2.2"] "1.2.2" (by decide) (by decide)

end LndGrpc
